import Mathlib

/-!
Verification of the motion-surveillance pipeline (frame differencer,
convex-hull region extractor, alert state machine with cooldown, bounded
motion log).  The definitions below are a shallow embedding of the
TypeScript source in `src/App.tsx`: pure functions become Lean functions,
the React state updates of `handleMotionDetected` become an explicit
state-and-effects transition, and JS numbers holding pixel values,
timestamps and coordinates become `Nat`/`Int`.
-/

/-- A 2-D integer grid point, as in the `Point` interface of `App.tsx`. -/
structure Point where
  x : Int
  y : Int
deriving DecidableEq

/-- Cross product of vectors OA and OB: positive when OAB makes a
counter-clockwise turn, negative for clockwise, zero when collinear
(`cross` in `App.tsx`). -/
def cross (o a b : Point) : Int :=
  (a.x - o.x) * (b.y - o.y) - (a.y - o.y) * (b.x - o.x)

/-- The total order used by the sort in `getConvexHull`: by `x`, ties
broken by `y` (the JS comparator `a.x === b.x ? a.y - b.y : a.x - b.x`). -/
def ptle (a b : Point) : Prop :=
  a.x < b.x ∨ (a.x = b.x ∧ a.y ≤ b.y)

/-- Strict version of `ptle`. -/
def ptlt (a b : Point) : Prop :=
  a.x < b.x ∨ (a.x = b.x ∧ a.y < b.y)

instance : DecidableRel ptle := fun a b => by unfold ptle; infer_instance

instance : DecidableRel ptlt := fun a b => by unfold ptlt; infer_instance

instance : IsTotal Point ptle := by
  constructor; intro a b; unfold ptle; omega

instance : IsTrans Point ptle := by
  constructor; intro a b c hab hbc; unfold ptle at *; omega

instance : IsAntisymm Point ptle := by
  constructor
  intro a b hab hba
  cases a; cases b
  simp only [Point.mk.injEq]
  unfold ptle at *
  simp_all
  omega

/-- The deterministic sort of `getConvexHull` (the JS comparator is a total
order whose ties are exactly equal points, so any correct sort produces
this list). -/
def sortPoints (l : List Point) : List Point :=
  List.insertionSort ptle l

/-- One popping phase of the monotone-chain loop: the stack is kept in
reversed order (head = top of stack = last element of the JS array); we
pop the top while the last two stack points and the incoming point `q` do
not make a strictly counter-clockwise turn (`cross ... <= 0`), exactly as
the `while` loops in `getConvexHull`. -/
def popWhile (q : Point) : List Point → List Point
  | b :: a :: rest => if cross a b q ≤ 0 then popWhile q (a :: rest) else b :: a :: rest
  | l => l

/-- Building one hull chain: fold the points, each step popping then
pushing (the `for` loops of `getConvexHull`).  The result is the JS chain
array reversed (head = last JS element). -/
def buildChain (pts : List Point) : List Point :=
  pts.foldl (fun acc p => p :: popWhile p acc) []

/-- Monotone-chain convex hull (`getConvexHull` in `App.tsx`).  For more
than two points: sort, build the lower chain over the sorted points and
the upper chain over the reversed sorted points, drop the last JS element
of each chain (`upper.pop(); lower.pop()`) and concatenate.  Dropping the
last JS element is `tail` in our reversed representation, and the JS
array order is recovered with `reverse`. -/
def getConvexHull (points : List Point) : List Point :=
  if points.length ≤ 2 then points
  else
    (buildChain (sortPoints points)).tail.reverse ++
      (buildChain (sortPoints points).reverse).tail.reverse

/-- `|a - b|` on pixel channel values. -/
def absDiff (a b : Nat) : Nat :=
  if a ≤ b then b - a else a - b

/-- Whether the pixel whose R channel sits at flat index `i` counts as
changed: the source reads `data[i..i+2]` and `prev[i..i+2]` and compares
the summed absolute channel differences against the sensitivity.  A JS
out-of-range read yields `undefined`, the difference is `NaN` and the
`>` comparison is `false`; so the comparison succeeds exactly when all six
reads are in range (`i + 2` below both lengths) and the sum exceeds the
sensitivity, which is what the bounds conjuncts encode. -/
def changedAt (data prev : List Nat) (sensitivity : Nat) (i : Nat) : Bool :=
  decide (i + 2 < data.length) && decide (i + 2 < prev.length) &&
    decide (sensitivity <
      absDiff (data.getD i 0) (prev.getD i 0) +
      absDiff (data.getD (i+1) 0) (prev.getD (i+1) 0) +
      absDiff (data.getD (i+2) 0) (prev.getD (i+2) 0))

/-- The flat RGBA indices visited by `for (let i = 0; i < data.length; i += 4)`. -/
def pixelIndices (len : Nat) : List Nat :=
  (List.range ((len + 3) / 4)).map (fun k => 4 * k)

/-- The frame differencer of `detectMotion` (`App.tsx` lines 195-207):
the Changed-Pixel Set of the two flat RGBA buffers, with the coordinates
`x = (i/4) % width`, `y = floor((i/4) / width)` of each changed pixel. -/
def detectMotionPixels (data prev : List Nat) (sensitivity width : Nat) : List Point :=
  (pixelIndices data.length).filterMap (fun i =>
    if changedAt data prev sensitivity i then
      some ⟨((i / 4) % width : Nat), ((i / 4) / width : Nat)⟩
    else none)

/-- `DetectionStatus` from `types.ts`. -/
inductive DetectionStatus where
  | IDLE
  | DETECTING
  | ALERT
deriving DecidableEq

/-- `MotionLog` from `types.ts`; the `Date` timestamp becomes epoch
milliseconds. -/
structure MotionLog where
  id : String
  timestamp : Int
  imageUrl : String
  analysis : Option String
  isAnalyzing : Bool
deriving DecidableEq

/-- `AppConfig` from `types.ts` (`cooldown` in seconds). -/
structure AppConfig where
  sensitivity : Nat
  threshold : Nat
  enableAudio : Bool
  enableAI : Bool
  cooldown : Int
deriving DecidableEq

/-- `MAX_LOGS` from `App.tsx`. -/
def MAX_LOGS : Nat := 20

/-- The log append of `handleMotionDetected`:
`setLogs(prev => [newLog, ...prev].slice(0, MAX_LOGS))`. -/
def appendLog (entry : MotionLog) (logs : List MotionLog) : List MotionLog :=
  (entry :: logs).take MAX_LOGS

/-- The asynchronous completion update of `handleMotionDetected`:
`setLogs(prev => prev.map(log => log.id === newLogId ? {...log, analysis:
description, isAnalyzing: false} : log))`. -/
def updateLog (targetId : String) (description : String)
    (logs : List MotionLog) : List MotionLog :=
  logs.map (fun log =>
    if log.id = targetId then
      { log with analysis := some description, isAnalyzing := false }
    else log)

/-- The Alert State of the spec: status, last-alert timestamp
(`lastAlertTime` ref, epoch ms) and the bounded motion log. -/
structure AlertState where
  status : DetectionStatus
  lastAlertTime : Int
  logs : List MotionLog
deriving DecidableEq

/-- The side effects a single invocation can fire: the audio alert
(`playAlertSound`), the AI-description request (`analyzeSecuritySnapshot`,
keyed by the id of the entry it will patch), and the newly created log
entry, if any. -/
structure Effects where
  audioFired : Bool
  descriptionRequested : Option String
  newEntry : Option MotionLog
deriving DecidableEq

/-- No side effect fired. -/
def noEffects : Effects :=
  { audioFired := false, descriptionRequested := none, newEntry := none }

/-- `handleMotionDetected` from `App.tsx`: inside cooldown it only sets
the status to ALERT; otherwise it stores `now`, plays the audio alert when
enabled, creates one new log entry (with `isAnalyzing := enableAI` and the
snapshot reference supplied by the capture collaborator) and requests the
AI description only when `config.enableAI && snapshotUrl` is truthy (the
empty string is falsy in JS). -/
def handleMotionDetected (config : AppConfig) (now : Int) (snapshotUrl : String)
    (s : AlertState) : AlertState × Effects :=
  if now - s.lastAlertTime < config.cooldown * 1000 then
    ({ s with status := .ALERT }, noEffects)
  else
    let newLog : MotionLog :=
      { id := toString now, timestamp := now, imageUrl := snapshotUrl,
        analysis := none, isAnalyzing := config.enableAI }
    ({ status := .ALERT, lastAlertTime := now, logs := appendLog newLog s.logs },
     { audioFired := config.enableAudio,
       descriptionRequested :=
         if config.enableAI ∧ snapshotUrl ≠ "" then some newLog.id else none,
       newEntry := some newLog })

/-- The per-tick decision of `detectMotion`: when the changed-pixel count
exceeds the threshold it calls `handleMotionDetected`, otherwise it only
sets the status to IDLE. -/
def tick (config : AppConfig) (motionPresent : Bool) (now : Int)
    (snapshotUrl : String) (s : AlertState) : AlertState × Effects :=
  if motionPresent then handleMotionDetected config now snapshotUrl s
  else ({ s with status := .IDLE }, noEffects)

/-- The operations the source ever applies to the motion log. -/
inductive LogOp where
  | append (entry : MotionLog)
  | update (targetId : String) (description : String)

/-- Apply one log operation. -/
def applyLogOp (logs : List MotionLog) : LogOp → List MotionLog
  | .append e => appendLog e logs
  | .update i d => updateLog i d logs

/-- Run a sequence of log operations starting from the empty log. -/
def runLog (ops : List LogOp) : List MotionLog :=
  ops.foldl applyLogOp []

/-- C7: for every input sequence of at most 2 points, the convex hull
function returns the input unchanged rather than failing. -/
theorem C7_hull_small_input (l : List Point) (h : l.length ≤ 2) :
    getConvexHull l = l := by
  unfold getConvexHull
  simp [h]

/-- Witness for C7 at a concrete 2-point input. -/
theorem C7_hull_small_input_witness :
    ([⟨0, 0⟩, ⟨3, 4⟩] : List Point).length ≤ 2 ∧
      getConvexHull [⟨0, 0⟩, ⟨3, 4⟩] = [⟨0, 0⟩, ⟨3, 4⟩] :=
  ⟨by decide, C7_hull_small_input _ (by decide)⟩

/-- C9: with motion-present = false the status is set to Idle and no other
field of the Alert State changes (the last-alert timestamp and the log are
untouched, no effect fires, and the configuration including the cooldown is
never written at all). -/
theorem C9_motion_absent_goes_idle (config : AppConfig) (now : Int)
    (snapshotUrl : String) (s : AlertState) :
    (tick config false now snapshotUrl s).1.status = DetectionStatus.IDLE ∧
    (tick config false now snapshotUrl s).1.lastAlertTime = s.lastAlertTime ∧
    (tick config false now snapshotUrl s).1.logs = s.logs ∧
    (tick config false now snapshotUrl s).2 = noEffects := by
  simp [tick]


/-- A concrete configuration used by counterexamples and witnesses. -/
def cfgW : AppConfig :=
  { sensitivity := 20, threshold := 150, enableAudio := true,
    enableAI := true, cooldown := 5 }

/-- A concrete fresh alert state used by counterexamples and witnesses. -/
def stW : AlertState :=
  { status := .IDLE, lastAlertTime := 0, logs := [] }

/-- C1 counterexample: at a qualifying trigger (cooldown elapsed) with
`enableAI = true` but an empty snapshot reference (the capture collaborator
failed), a new entry is created yet no AI-description request fires, so the
side effects are not invoked purely "per configuration flags". -/
theorem C1_counterexample :
    ¬ ((10000 : Int) - stW.lastAlertTime < cfgW.cooldown * 1000) ∧
      cfgW.enableAI = true ∧
      (tick cfgW true 10000 "" stW).2.newEntry.isSome = true ∧
      (tick cfgW true 10000 "" stW).2.descriptionRequested = none := by
  refine ⟨by norm_num [stW, cfgW], rfl, ?_, ?_⟩ <;>
    simp [tick, handleMotionDetected, noEffects, cfgW, stW]

/-- C1 (amended): with motion-present = true at time `now`, if
`now - lastAlertTime < cooldown` the status is set to Alert and nothing
else changes (no entry, no side effect); otherwise the timestamp is set to
`now`, the status to Alert, exactly one new entry is prepended (with
eviction past the maximum), the audio alert fires per its configuration
flag, and the AI-description request fires per its configuration flag
provided the captured snapshot reference is non-empty. -/
theorem C1_alert_state_machine (config : AppConfig) (now : Int)
    (snapshotUrl : String) (s : AlertState) :
    (now - s.lastAlertTime < config.cooldown * 1000 →
      tick config true now snapshotUrl s = ({ s with status := .ALERT }, noEffects)) ∧
    (¬ (now - s.lastAlertTime < config.cooldown * 1000) →
      ∃ e : MotionLog,
        (tick config true now snapshotUrl s).2.newEntry = some e ∧
        (tick config true now snapshotUrl s).1 =
          { status := .ALERT, lastAlertTime := now, logs := appendLog e s.logs } ∧
        (tick config true now snapshotUrl s).2.audioFired = config.enableAudio ∧
        (tick config true now snapshotUrl s).2.descriptionRequested =
          (if config.enableAI ∧ snapshotUrl ≠ "" then some e.id else none)) := by
  constructor
  · intro h
    simp [tick, handleMotionDetected, h]
  · intro h
    refine ⟨{ id := toString now, timestamp := now, imageUrl := snapshotUrl,
              analysis := none, isAnalyzing := config.enableAI }, ?_, ?_, ?_, ?_⟩ <;>
      simp [tick, handleMotionDetected, h]

/-- Witness for C1 (amended) at a concrete qualifying trigger. -/
theorem C1_alert_state_machine_witness :
    ∃ e : MotionLog,
      (tick cfgW true 10000 "snap" stW).2.newEntry = some e ∧
      (tick cfgW true 10000 "snap" stW).1 =
        { status := .ALERT, lastAlertTime := 10000, logs := appendLog e stW.logs } ∧
      (tick cfgW true 10000 "snap" stW).2.audioFired = cfgW.enableAudio ∧
      (tick cfgW true 10000 "snap" stW).2.descriptionRequested =
        (if cfgW.enableAI ∧ ("snap" : String) ≠ "" then some e.id else none) :=
  (C1_alert_state_machine cfgW 10000 "snap" stW).2 (by norm_num [cfgW, stW])

/-- C10: at a qualifying trigger with AI enabled and an empty snapshot
reference, the new entry is created with `isAnalyzing = true` and no
description request is issued; completions only ever patch the entry whose
id matches their own request, so no later completion clears the flag or
attaches a description and the entry stays pending. -/
theorem C10_empty_snapshot_stays_pending (config : AppConfig) (now : Int)
    (s : AlertState)
    (hcool : ¬ (now - s.lastAlertTime < config.cooldown * 1000))
    (hai : config.enableAI = true) :
    ∃ e : MotionLog,
      (tick config true now "" s).2.newEntry = some e ∧
      e.isAnalyzing = true ∧
      e.analysis = none ∧
      (tick config true now "" s).2.descriptionRequested = none ∧
      e ∈ (tick config true now "" s).1.logs ∧
      (∀ otherId d logs, otherId ≠ e.id → e ∈ logs → e ∈ updateLog otherId d logs) := by
  refine ⟨{ id := toString now, timestamp := now, imageUrl := "",
            analysis := none, isAnalyzing := config.enableAI }, ?_, ?_, ?_, ?_, ?_, ?_⟩
  · simp [tick, handleMotionDetected, hcool]
  · exact hai
  · rfl
  · simp [tick, handleMotionDetected, hcool]
  · simp [tick, handleMotionDetected, hcool, appendLog, MAX_LOGS]
  · intro otherId d logs hne hmem
    unfold updateLog
    refine List.mem_map.mpr ⟨_, hmem, ?_⟩
    exact if_neg (fun hc => hne hc.symm)

/-- Witness for C10 at a concrete qualifying trigger with AI enabled and
an empty snapshot. -/
theorem C10_empty_snapshot_stays_pending_witness :
    ∃ e : MotionLog,
      (tick cfgW true 10000 "" stW).2.newEntry = some e ∧
      e.isAnalyzing = true ∧
      e.analysis = none ∧
      (tick cfgW true 10000 "" stW).2.descriptionRequested = none ∧
      e ∈ (tick cfgW true 10000 "" stW).1.logs ∧
      (∀ otherId d logs, otherId ≠ e.id → e ∈ logs → e ∈ updateLog otherId d logs) :=
  C10_empty_snapshot_stays_pending cfgW 10000 stW (by norm_num [cfgW, stW]) rfl

/-- `changedAt` unfolded to its three conditions. -/
theorem changedAt_eq_true (data prev : List Nat) (s i : Nat) :
    changedAt data prev s i = true ↔
      i + 2 < data.length ∧ i + 2 < prev.length ∧
        s < absDiff (data.getD i 0) (prev.getD i 0) +
            absDiff (data.getD (i+1) 0) (prev.getD (i+1) 0) +
            absDiff (data.getD (i+2) 0) (prev.getD (i+2) 0) := by
  simp [changedAt, and_assoc]

/-- The motion log never exceeds `MAX_LOGS` under any sequence of
operations, whatever bounded log it starts from. -/
theorem foldl_applyLogOp_length (ops : List LogOp) :
    ∀ init : List MotionLog, init.length ≤ MAX_LOGS →
      (ops.foldl applyLogOp init).length ≤ MAX_LOGS := by
  induction ops with
  | nil => intro init h; simpa using h
  | cons op rest ih =>
    intro init h
    refine ih _ ?_
    cases op with
    | append e => simp [applyLogOp, appendLog, MAX_LOGS]
    | update i d => simpa [applyLogOp, updateLog] using h

/-- C4: the motion log never exceeds the configured maximum (20) under any
sequence of operations; appending prepends the new entry and keeps only
the first `MAX_LOGS - 1` old ones, so at capacity exactly the oldest
(last) entry is evicted; an in-place description update keeps length and
the entry occupying every position (by id), so relative order is
preserved. -/
theorem C4_log_bounded_order_preserved (ops : List LogOp) (e : MotionLog)
    (logs : List MotionLog) (targetId d : String) (i : Nat) :
    (runLog ops).length ≤ MAX_LOGS ∧
    (logs.length = MAX_LOGS → appendLog e logs = e :: logs.dropLast) ∧
    appendLog e logs = e :: logs.take (MAX_LOGS - 1) ∧
    (updateLog targetId d logs).length = logs.length ∧
    ((updateLog targetId d logs)[i]?).map MotionLog.id = (logs[i]?).map MotionLog.id := by
  refine ⟨foldl_applyLogOp_length ops [] (by simp), ?_, ?_, ?_, ?_⟩
  · intro h
    have : logs.dropLast = logs.take (MAX_LOGS - 1) := by
      rw [List.dropLast_eq_take, h]
    rw [this]
    simp [appendLog, MAX_LOGS]
  · simp [appendLog, MAX_LOGS]
  · simp [updateLog]
  · simp only [updateLog, List.getElem?_map]
    cases logs[i]? with
    | none => rfl
    | some a => by_cases hc : a.id = targetId <;> simp [hc]

/-- A concrete log entry used in witnesses. -/
def entryW : MotionLog :=
  { id := "e1", timestamp := 0, imageUrl := "", analysis := none, isAnalyzing := false }

/-- A concrete log at full capacity used in witnesses. -/
def logsW : List MotionLog := List.replicate MAX_LOGS entryW

/-- Witness for C4 at a concrete full log. -/
theorem C4_log_bounded_order_preserved_witness :
    (runLog []).length ≤ MAX_LOGS ∧
    appendLog entryW logsW = entryW :: logsW.dropLast ∧
    appendLog entryW logsW = entryW :: logsW.take (MAX_LOGS - 1) ∧
    (updateLog "e1" "desc" logsW).length = logsW.length ∧
    ((updateLog "e1" "desc" logsW)[0]?).map MotionLog.id = (logsW[0]?).map MotionLog.id :=
  ⟨(C4_log_bounded_order_preserved [] entryW logsW "e1" "desc" 0).1,
   (C4_log_bounded_order_preserved [] entryW logsW "e1" "desc" 0).2.1 (by
      simp [logsW]),
   (C4_log_bounded_order_preserved [] entryW logsW "e1" "desc" 0).2.2.1,
   (C4_log_bounded_order_preserved [] entryW logsW "e1" "desc" 0).2.2.2.1,
   (C4_log_bounded_order_preserved [] entryW logsW "e1" "desc" 0).2.2.2.2⟩

/-- C2 counterexample: a 2-by-1 current buffer against a 1-by-1 previous
buffer (mismatched dimensions) does not fail: the differencer returns a
normal, partial Changed-Pixel Set containing exactly the one overlapping
changed pixel. -/
theorem C2_counterexample :
    ([255, 255, 255, 255, 255, 255, 255, 255] : List Nat).length = 4 * (2 * 1) ∧
    ([0, 0, 0, 0] : List Nat).length = 4 * (1 * 1) ∧
    detectMotionPixels [255, 255, 255, 255, 255, 255, 255, 255] [0, 0, 0, 0] 20 2 =
      [⟨0, 0⟩] := by
  refine ⟨rfl, rfl, ?_⟩
  decide

/-- C2 (amended): the frame differencer has no failure path at all.  On
buffers of mismatched sizes it silently produces the Changed-Pixel Set of
the overlap, exactly: a coordinate is emitted if and only if it is the
pixel coordinate of some stride-4 position whose three colour channels
are present in both buffers and whose summed absolute channel difference
exceeds the sensitivity.  Pixels with any channel missing from either
buffer are never emitted, and every qualifying overlapping pixel is. -/
theorem C2_mismatched_buffers_no_failure (data prev : List Nat)
    (sensitivity width : Nat) (p : Point) :
    p ∈ detectMotionPixels data prev sensitivity width ↔
      ∃ i, i % 4 = 0 ∧ i + 2 < data.length ∧ i + 2 < prev.length ∧
        sensitivity < absDiff (data.getD i 0) (prev.getD i 0) +
            absDiff (data.getD (i+1) 0) (prev.getD (i+1) 0) +
            absDiff (data.getD (i+2) 0) (prev.getD (i+2) 0) ∧
        p = ⟨((i / 4) % width : Nat), ((i / 4) / width : Nat)⟩ := by
  constructor
  · intro hp
    unfold detectMotionPixels at hp
    rcases List.mem_filterMap.mp hp with ⟨i, hi, hf⟩
    rcases List.mem_map.mp hi with ⟨k, _, hki⟩
    by_cases hc : changedAt data prev sensitivity i
    · rcases (changedAt_eq_true data prev sensitivity i).mp hc with ⟨h1, h2, h3⟩
      refine ⟨i, by omega, h1, h2, h3, ?_⟩
      rw [if_pos hc] at hf
      exact (Option.some.inj hf).symm
    · rw [if_neg hc] at hf
      exact absurd hf (by simp)
  · rintro ⟨i, hm4, h1, h2, h3, hpc⟩
    unfold detectMotionPixels
    refine List.mem_filterMap.mpr ⟨i, ?_, ?_⟩
    · unfold pixelIndices
      exact List.mem_map.mpr ⟨i / 4, List.mem_range.mpr (by omega), by omega⟩
    · have hc : changedAt data prev sensitivity i = true :=
        (changedAt_eq_true data prev sensitivity i).mpr ⟨h1, h2, h3⟩
      rw [if_pos hc, hpc]

/-- Witness for C2 (amended): the characterization instantiated at the
concrete mismatched pair, producing the overlapping changed pixel. -/
theorem C2_mismatched_buffers_no_failure_witness :
    (⟨0, 0⟩ : Point) ∈
      detectMotionPixels [255, 255, 255, 255, 255, 255, 255, 255] [0, 0, 0, 0] 20 2 :=
  (C2_mismatched_buffers_no_failure
      [255, 255, 255, 255, 255, 255, 255, 255] [0, 0, 0, 0] 20 2 ⟨0, 0⟩).mpr
    ⟨0, by decide, by decide, by decide, by decide, by decide⟩

/-- C3: over equally-sized RGBA pixel buffers, a pixel's coordinate is in
the Changed-Pixel Set iff the sum of the absolute differences of its three
colour channels strictly exceeds the sensitivity; and comparing any buffer
with itself yields the empty Changed-Pixel Set for every sensitivity. -/
theorem C3_differencer_characterization (data prev : List Nat)
    (sensitivity width height p : Nat)
    (hlen : prev.length = data.length)
    (hsz : data.length = 4 * (width * height))
    (hp : p < width * height) :
    ((⟨((p % width : Nat) : Int), ((p / width : Nat) : Int)⟩ : Point) ∈
        detectMotionPixels data prev sensitivity width ↔
      sensitivity <
        absDiff (data.getD (4*p) 0) (prev.getD (4*p) 0) +
        absDiff (data.getD (4*p+1) 0) (prev.getD (4*p+1) 0) +
        absDiff (data.getD (4*p+2) 0) (prev.getD (4*p+2) 0)) ∧
    detectMotionPixels data data sensitivity width = [] := by
  constructor
  · constructor
    · intro hmem
      rcases List.mem_filterMap.mp hmem with ⟨i, hi, hf⟩
      rcases List.mem_map.mp hi with ⟨k, _, hki⟩
      by_cases hc : changedAt data prev sensitivity i
      · rw [if_pos hc] at hf
        have hco := Option.some.inj hf
        have hx : ((i / 4) % width : Nat) = (p % width : Nat) := by
          have := congrArg Point.x hco
          simp only at this
          exact_mod_cast this
        have hy : ((i / 4) / width : Nat) = (p / width : Nat) := by
          have := congrArg Point.y hco
          simp only at this
          exact_mod_cast this
        have hik : i / 4 = k := by omega
        have hkp : i / 4 = p := by
          have h1 := Nat.div_add_mod (i / 4) width
          have h2 := Nat.div_add_mod p width
          rw [hx, hy] at h1
          omega
        have hi4 : i = 4 * p := by omega
        rw [hi4] at hc
        exact ((changedAt_eq_true data prev sensitivity (4*p)).mp hc).2.2
      · rw [if_neg hc] at hf
        exact absurd hf (by simp)
    · intro h
      refine List.mem_filterMap.mpr ⟨4 * p, ?_, ?_⟩
      · refine List.mem_map.mpr ⟨p, List.mem_range.mpr ?_, rfl⟩
        rw [hsz]
        omega
      · have hc : changedAt data prev sensitivity (4*p) = true := by
          refine (changedAt_eq_true data prev sensitivity (4*p)).mpr ⟨?_, ?_, h⟩
          · omega
          · omega
        rw [if_pos hc]
        have h4 : 4 * p / 4 = p := by omega
        rw [h4]
  · unfold detectMotionPixels
    rw [List.filterMap_eq_nil_iff]
    intro i _
    have hc : changedAt data data sensitivity i = false := by
      simp [changedAt, absDiff]
    rw [hc]
    simp

/-- Witness for C3 at concrete 2-by-1 buffers differing in pixel 1. -/
theorem C3_differencer_characterization_witness :
    ((⟨((1 % 2 : Nat) : Int), ((1 / 2 : Nat) : Int)⟩ : Point) ∈
        detectMotionPixels [10, 10, 10, 255, 0, 0, 0, 255]
          [10, 10, 10, 255, 90, 0, 0, 255] 20 2 ↔
      20 <
        absDiff (([10, 10, 10, 255, 0, 0, 0, 255] : List Nat).getD (4*1) 0)
          (([10, 10, 10, 255, 90, 0, 0, 255] : List Nat).getD (4*1) 0) +
        absDiff (([10, 10, 10, 255, 0, 0, 0, 255] : List Nat).getD (4*1+1) 0)
          (([10, 10, 10, 255, 90, 0, 0, 255] : List Nat).getD (4*1+1) 0) +
        absDiff (([10, 10, 10, 255, 0, 0, 0, 255] : List Nat).getD (4*1+2) 0)
          (([10, 10, 10, 255, 90, 0, 0, 255] : List Nat).getD (4*1+2) 0)) ∧
    detectMotionPixels [10, 10, 10, 255, 0, 0, 0, 255]
      [10, 10, 10, 255, 0, 0, 0, 255] 20 2 = [] :=
  C3_differencer_characterization [10, 10, 10, 255, 0, 0, 0, 255]
    [10, 10, 10, 255, 90, 0, 0, 255] 20 2 1 1 rfl rfl (by decide)

/-- `ptle` is reflexive. -/
theorem ptle_refl (a : Point) : ptle a a := by
  unfold ptle; omega

/-- The last element of a list is a member. -/
theorem mem_of_getLast?_eq (l : List Point) (x : Point)
    (h : l.getLast? = some x) : x ∈ l := by
  have h2 := List.head?_reverse l
  rw [h] at h2
  exact List.mem_reverse.mp (List.mem_of_mem_head? (Option.mem_def.mpr h2))

/-- Processing one more point appends a pop-then-push step to the chain. -/
theorem buildChain_append (l : List Point) (q : Point) :
    buildChain (l ++ [q]) = q :: popWhile q (buildChain l) := by
  simp [buildChain, List.foldl_append]

/-- In a sorted list the head is below every member. -/
theorem sorted_head_le (l : List Point) (y : Point)
    (hs : List.Sorted ptle l) (hy : l.head? = some y) :
    ∀ p ∈ l, ptle y p := by
  cases l with
  | nil => simp at hy
  | cons a rest =>
    intro p hp
    obtain rfl : a = y := by simpa using hy
    rcases List.mem_cons.mp hp with rfl | hp
    · exact ptle_refl p
    · exact List.rel_of_sorted_cons hs p hp

/-- In a sorted list every member is below the last element. -/
theorem sorted_le_getLast (l : List Point) (x : Point)
    (hs : List.Sorted ptle l) (hx : l.getLast? = some x) :
    ∀ p ∈ l, ptle p x := by
  induction l with
  | nil => simp at hx
  | cons a rest ih =>
    intro p hp
    cases rest with
    | nil =>
      have hax : a = x := by simpa using hx
      have hpa : p = a := by simpa using hp
      rw [hpa, hax]
      exact ptle_refl x
    | cons b tl =>
      have hx' : (b :: tl).getLast? = some x := by
        simpa [List.getLast?_cons_cons] using hx
      have hxmem : x ∈ b :: tl := mem_of_getLast?_eq _ x hx'
      rcases List.mem_cons.mp hp with rfl | hp
      · exact List.rel_of_sorted_cons hs x hxmem
      · exact ih hs.of_cons hx' p hp

/-- On an input whose members are pairwise collinear, each chain collapses
to the segment from the first to the last processed point. -/
theorem buildChain_collinear (l : List Point)
    (hlen : 2 ≤ l.length)
    (hcol : ∀ p ∈ l, ∀ q ∈ l, ∀ r ∈ l, cross p q r = 0) :
    ∃ x y, l.head? = some y ∧ l.getLast? = some x ∧ buildChain l = [x, y] := by
  induction l using List.reverseRecOn with
  | nil => simp at hlen
  | append_singleton T q ih =>
    by_cases hT2 : 2 ≤ T.length
    · have hcol' : ∀ p ∈ T, ∀ q' ∈ T, ∀ r ∈ T, cross p q' r = 0 :=
        fun p hp q' hq' r hr =>
          hcol p (List.mem_append_left _ hp) q' (List.mem_append_left _ hq')
            r (List.mem_append_left _ hr)
      obtain ⟨x, y, hh, hl, hbc⟩ := ih hT2 hcol'
      refine ⟨q, y, ?_, List.getLast?_concat _, ?_⟩
      · rw [List.head?_append, hh]
        rfl
      · rw [buildChain_append, hbc]
        have hy : y ∈ T := List.mem_of_mem_head? (Option.mem_def.mpr hh)
        have hx : x ∈ T := mem_of_getLast?_eq _ x hl
        have hzero : cross y x q = 0 :=
          hcol y (List.mem_append_left _ hy) x (List.mem_append_left _ hx)
            q (List.mem_append_right _ (by simp))
        simp [popWhile, hzero]
    · have hT1 : T.length = 1 := by
        rw [List.length_append] at hlen
        simp at hlen hT2
        omega
      obtain ⟨t, rfl⟩ := List.length_eq_one.mp hT1
      refine ⟨q, t, by simp, List.getLast?_concat _, ?_⟩
      rw [buildChain_append]
      simp [buildChain, popWhile]

/-- C5: for every input of three or more pairwise collinear points, the
convex hull function returns exactly the two extreme endpoints of the
collinear set (the lexicographic minimum and maximum, which bound every
input point). -/
theorem C5_collinear_hull_extremes (pts : List Point)
    (hlen : 3 ≤ pts.length)
    (hcol : ∀ p ∈ pts, ∀ q ∈ pts, ∀ r ∈ pts, cross p q r = 0) :
    ∃ a b, getConvexHull pts = [a, b] ∧ a ∈ pts ∧ b ∈ pts ∧
      ∀ p ∈ pts, ptle a p ∧ ptle p b := by
  have hperm : List.Perm (sortPoints pts) pts := List.perm_insertionSort ptle pts
  have hsorted : List.Sorted ptle (sortPoints pts) :=
    List.sorted_insertionSort ptle pts
  have hlenS : 2 ≤ (sortPoints pts).length := by
    rw [hperm.length_eq]; omega
  have hcolS : ∀ p ∈ sortPoints pts, ∀ q ∈ sortPoints pts, ∀ r ∈ sortPoints pts,
      cross p q r = 0 := fun p hp q hq r hr =>
    hcol p (hperm.mem_iff.mp hp) q (hperm.mem_iff.mp hq) r (hperm.mem_iff.mp hr)
  obtain ⟨x, y, hh, hl, hbc⟩ := buildChain_collinear (sortPoints pts) hlenS hcolS
  have hlenR : 2 ≤ (sortPoints pts).reverse.length := by simpa using hlenS
  have hcolR : ∀ p ∈ (sortPoints pts).reverse, ∀ q ∈ (sortPoints pts).reverse,
      ∀ r ∈ (sortPoints pts).reverse, cross p q r = 0 := fun p hp q hq r hr =>
    hcolS p (List.mem_reverse.mp hp) q (List.mem_reverse.mp hq)
      r (List.mem_reverse.mp hr)
  obtain ⟨x', y', hh', hl', hbc'⟩ :=
    buildChain_collinear (sortPoints pts).reverse hlenR hcolR
  have hy' : y' = x := by
    rw [List.head?_reverse, hl] at hh'
    exact (Option.some.inj hh').symm
  have hhull : getConvexHull pts = [y, y'] := by
    unfold getConvexHull
    rw [if_neg (by omega), hbc, hbc']
    rfl
  have hymem : y ∈ pts := hperm.mem_iff.mp (List.mem_of_mem_head? (Option.mem_def.mpr hh))
  have hxmem : x ∈ pts := hperm.mem_iff.mp (mem_of_getLast?_eq _ x hl)
  refine ⟨y, x, by rw [hhull, hy'], hymem, hxmem, fun p hp => ?_⟩
  have hpS : p ∈ sortPoints pts := hperm.mem_iff.mpr hp
  exact ⟨sorted_head_le _ y hsorted hh p hpS,
    sorted_le_getLast _ x hsorted hl p hpS⟩

/-- Witness for C5 at three concrete collinear points. -/
theorem C5_collinear_hull_extremes_witness :
    ∃ a b, getConvexHull [⟨2, 2⟩, ⟨0, 0⟩, ⟨1, 1⟩] = [a, b] ∧
      a ∈ ([⟨2, 2⟩, ⟨0, 0⟩, ⟨1, 1⟩] : List Point) ∧
      b ∈ ([⟨2, 2⟩, ⟨0, 0⟩, ⟨1, 1⟩] : List Point) ∧
      ∀ p ∈ ([⟨2, 2⟩, ⟨0, 0⟩, ⟨1, 1⟩] : List Point), ptle a p ∧ ptle p b :=
  C5_collinear_hull_extremes [⟨2, 2⟩, ⟨0, 0⟩, ⟨1, 1⟩] (by decide) (by decide)

/-- C6: for every input consisting of the 4 corners of an (axis-aligned)
square of half-side `s > 0` centred at `(a, b)` together with its centre,
in any order, the hull is exactly the 4 corners as a simple polygon in
counter-clockwise winding (every consecutive cyclic triple turns strictly
counter-clockwise), and the interior centre point is excluded. -/
theorem C6_square_hull_corners (a b s : Int) (hs : 0 < s) (l : List Point)
    (hperm : List.Perm l
      [⟨a-s, b-s⟩, ⟨a+s, b-s⟩, ⟨a+s, b+s⟩, ⟨a-s, b+s⟩, ⟨a, b⟩]) :
    getConvexHull l = [⟨a-s, b-s⟩, ⟨a+s, b-s⟩, ⟨a+s, b+s⟩, ⟨a-s, b+s⟩] ∧
    cross ⟨a-s, b-s⟩ ⟨a+s, b-s⟩ ⟨a+s, b+s⟩ > 0 ∧
    cross ⟨a+s, b-s⟩ ⟨a+s, b+s⟩ ⟨a-s, b+s⟩ > 0 ∧
    cross ⟨a+s, b+s⟩ ⟨a-s, b+s⟩ ⟨a-s, b-s⟩ > 0 ∧
    cross ⟨a-s, b+s⟩ ⟨a-s, b-s⟩ ⟨a+s, b-s⟩ > 0 ∧
    (⟨a, b⟩ : Point) ∉ getConvexHull l := by
  have hsorted : List.Sorted ptle
      [(⟨a-s, b-s⟩ : Point), ⟨a-s, b+s⟩, ⟨a, b⟩, ⟨a+s, b-s⟩, ⟨a+s, b+s⟩] := by
    simp [List.sorted_cons, ptle]
    omega
  have hshuffle : List.Perm
      ([(⟨a-s, b-s⟩ : Point)] ++ ([⟨a+s, b-s⟩, ⟨a+s, b+s⟩] ++ [⟨a-s, b+s⟩, ⟨a, b⟩]))
      ([(⟨a-s, b-s⟩ : Point)] ++ ([⟨a-s, b+s⟩, ⟨a, b⟩] ++ [⟨a+s, b-s⟩, ⟨a+s, b+s⟩])) :=
    List.Perm.append_left _ List.perm_append_comm
  have hperm2 : List.Perm l
      [(⟨a-s, b-s⟩ : Point), ⟨a-s, b+s⟩, ⟨a, b⟩, ⟨a+s, b-s⟩, ⟨a+s, b+s⟩] :=
    hperm.trans hshuffle
  have hsort_eq : sortPoints l =
      [(⟨a-s, b-s⟩ : Point), ⟨a-s, b+s⟩, ⟨a, b⟩, ⟨a+s, b-s⟩, ⟨a+s, b+s⟩] :=
    List.eq_of_perm_of_sorted
      ((List.perm_insertionSort ptle l).trans hperm2)
      (List.sorted_insertionSort ptle l) hsorted
  have hc1 : cross ⟨a-s, b-s⟩ ⟨a-s, b+s⟩ ⟨a, b⟩ ≤ 0 := by
    simp [cross]; nlinarith
  have hc2 : cross ⟨a-s, b-s⟩ ⟨a, b⟩ ⟨a+s, b-s⟩ ≤ 0 := by
    simp [cross]; nlinarith
  have hc3 : ¬ cross ⟨a-s, b-s⟩ ⟨a+s, b-s⟩ ⟨a+s, b+s⟩ ≤ 0 := by
    simp [cross]; nlinarith
  have hc4 : cross ⟨a+s, b+s⟩ ⟨a+s, b-s⟩ ⟨a, b⟩ ≤ 0 := by
    simp [cross]; nlinarith
  have hc5 : cross ⟨a+s, b+s⟩ ⟨a, b⟩ ⟨a-s, b+s⟩ ≤ 0 := by
    simp [cross]; nlinarith
  have hc6 : ¬ cross ⟨a+s, b+s⟩ ⟨a-s, b+s⟩ ⟨a-s, b-s⟩ ≤ 0 := by
    simp [cross]; nlinarith
  have hlow : buildChain
      [(⟨a-s, b-s⟩ : Point), ⟨a-s, b+s⟩, ⟨a, b⟩, ⟨a+s, b-s⟩, ⟨a+s, b+s⟩] =
      [⟨a+s, b+s⟩, ⟨a+s, b-s⟩, ⟨a-s, b-s⟩] := by
    unfold buildChain
    simp only [List.foldl_cons, List.foldl_nil]
    simp only [popWhile]
    rw [if_pos hc1]
    simp only [popWhile]
    rw [if_pos hc2]
    simp only [popWhile]
    rw [if_neg hc3]
  have hup : buildChain
      [(⟨a+s, b+s⟩ : Point), ⟨a+s, b-s⟩, ⟨a, b⟩, ⟨a-s, b+s⟩, ⟨a-s, b-s⟩] =
      [⟨a-s, b-s⟩, ⟨a-s, b+s⟩, ⟨a+s, b+s⟩] := by
    unfold buildChain
    simp only [List.foldl_cons, List.foldl_nil]
    simp only [popWhile]
    rw [if_pos hc4]
    simp only [popWhile]
    rw [if_pos hc5]
    simp only [popWhile]
    rw [if_neg hc6]
  have hlen : l.length = 5 := by
    rw [hperm.length_eq]; rfl
  have hhull : getConvexHull l =
      [⟨a-s, b-s⟩, ⟨a+s, b-s⟩, ⟨a+s, b+s⟩, ⟨a-s, b+s⟩] := by
    unfold getConvexHull
    rw [if_neg (by omega), hsort_eq]
    rw [show ([(⟨a-s, b-s⟩ : Point), ⟨a-s, b+s⟩, ⟨a, b⟩, ⟨a+s, b-s⟩,
        ⟨a+s, b+s⟩].reverse) =
        [(⟨a+s, b+s⟩ : Point), ⟨a+s, b-s⟩, ⟨a, b⟩, ⟨a-s, b+s⟩, ⟨a-s, b-s⟩]
      from rfl]
    rw [hlow, hup]
    rfl
  refine ⟨hhull, ?_, ?_, ?_, ?_, ?_⟩
  · simp [cross]; nlinarith
  · simp [cross]; nlinarith
  · simp [cross]; nlinarith
  · simp [cross]; nlinarith
  · rw [hhull]
    simp only [List.mem_cons, List.not_mem_nil, or_false, Point.mk.injEq]
    omega

/-- Witness for C6 at the unit square centred at the origin. -/
theorem C6_square_hull_corners_witness :
    getConvexHull [⟨-1, -1⟩, ⟨1, -1⟩, ⟨1, 1⟩, ⟨-1, 1⟩, ⟨0, 0⟩] =
      [⟨0-1, 0-1⟩, ⟨0+1, 0-1⟩, ⟨0+1, 0+1⟩, ⟨0-1, 0+1⟩] ∧
    cross ⟨0-1, 0-1⟩ ⟨0+1, 0-1⟩ ⟨0+1, 0+1⟩ > 0 ∧
    cross ⟨0+1, 0-1⟩ ⟨0+1, 0+1⟩ ⟨0-1, 0+1⟩ > 0 ∧
    cross ⟨0+1, 0+1⟩ ⟨0-1, 0+1⟩ ⟨0-1, 0-1⟩ > 0 ∧
    cross ⟨0-1, 0+1⟩ ⟨0-1, 0-1⟩ ⟨0+1, 0-1⟩ > 0 ∧
    (⟨0, 0⟩ : Point) ∉
      getConvexHull [⟨-1, -1⟩, ⟨1, -1⟩, ⟨1, 1⟩, ⟨-1, 1⟩, ⟨0, 0⟩] :=
  C6_square_hull_corners 0 0 1 (by norm_num)
    [⟨-1, -1⟩, ⟨1, -1⟩, ⟨1, 1⟩, ⟨-1, 1⟩, ⟨0, 0⟩] (by decide)

/-- `ptlt` is `ptle` plus distinctness. -/
theorem ptlt_iff (a b : Point) : ptlt a b ↔ ptle a b ∧ a ≠ b := by
  cases a; cases b
  simp only [ptlt, ptle, ne_eq, Point.mk.injEq]
  omega

/-- Totality of the strict order against the weak one. -/
theorem ptle_of_not_ptlt (a b : Point) (h : ¬ ptlt a b) : ptle b a := by
  cases a; cases b
  simp only [ptlt, ptle, not_or, not_and, not_lt] at *
  omega

/-- `ptlt` from `ptle` and distinctness. -/
theorem ptlt_of_ptle_ne (a b : Point) (h : ptle a b) (hne : a ≠ b) : ptlt a b :=
  (ptlt_iff a b).mpr ⟨h, hne⟩

/-- `ptle` and the reverse `ptlt` are incompatible. -/
theorem not_ptlt_of_ptle (a b : Point) (h : ptle a b) : ¬ ptlt b a := by
  cases a; cases b
  simp only [ptlt, ptle, not_or, not_and, not_lt] at *
  omega

/-- `ptle` forces the x-coordinates to be ordered. -/
theorem ptle_x (a b : Point) (h : ptle a b) : a.x ≤ b.x := by
  rcases h with h | ⟨h, _⟩
  · omega
  · omega

/-- `ptlt` forces the x-coordinates to be ordered. -/
theorem ptlt_x (a b : Point) (h : ptlt a b) : a.x ≤ b.x := by
  rcases h with h | ⟨h, _⟩
  · omega
  · omega

/-- `ptlt` with equal x-coordinates orders the y-coordinates. -/
theorem ptlt_y_of_x_eq (a b : Point) (h : ptlt a b) (hx : a.x = b.x) :
    a.y < b.y := by
  rcases h with h | ⟨_, h⟩
  · omega
  · exact h

/-- A degenerate cross product: repeated first point. -/
theorem cross_self_left (o b : Point) : cross o o b = 0 := by
  unfold cross; ring

/-- A degenerate cross product: repeated last points. -/
theorem cross_self_right (o a : Point) : cross o a a = 0 := by
  unfold cross; ring

/-- A degenerate cross product: outer points equal. -/
theorem cross_outer (o a : Point) : cross o a o = 0 := by
  unfold cross; ring

/-- Certificate used when a stack point `B` above `T` was popped by `q`:
any processed point `p` above the old edge `T -> B` and lexicographically
above `T` stays (weakly) above the rotated edge `T -> q`. -/
theorem cert_pop (T B q p : Point)
    (h1 : cross T B p ≥ 0) (h2 : cross T B q ≤ 0)
    (hTB : ptlt T B) (hTp : ptlt T p) (hTq : ptle T q) :
    cross T q p ≥ 0 := by
  have hTBx : T.x ≤ B.x := ptlt_x _ _ hTB
  have hTpx : T.x ≤ p.x := ptlt_x _ _ hTp
  have hTqx : T.x ≤ q.x := ptle_x _ _ hTq
  rcases lt_or_eq_of_le hTBx with hlt | heq
  · have hid : (B.x - T.x) * cross T q p =
        (q.x - T.x) * cross T B p - (p.x - T.x) * cross T B q := by
      unfold cross; ring
    nlinarith [mul_nonneg (by omega : (0:Int) ≤ q.x - T.x) h1,
      mul_nonneg (by omega : (0:Int) ≤ p.x - T.x) (by omega : (0:Int) ≤ -cross T B q)]
  · have hyB : T.y < B.y := ptlt_y_of_x_eq _ _ hTB heq.symm.symm
    have hpxT : p.x = T.x := by
      have : cross T B p = (B.x - T.x) * (p.y - T.y) - (B.y - T.y) * (p.x - T.x) := by
        unfold cross; ring
      rw [← heq] at this
      simp at this
      nlinarith
    have hpyT : T.y < p.y := ptlt_y_of_x_eq _ _ hTp hpxT.symm
    have : cross T q p = (q.x - T.x) * (p.y - T.y) - (q.y - T.y) * (p.x - T.x) := by
      unfold cross; ring
    rw [this, hpxT]
    have : q.x - T.x ≥ 0 := by omega
    nlinarith

/-- Certificate used when popping stops at edge `A -> T` with `q` strictly
above it: any processed `p` above that edge and lexicographically at or
below `T` is (weakly) above the new edge `T -> q`. -/
theorem cert_stop (A T q p : Point)
    (h1 : cross A T p ≥ 0) (h2 : cross A T q > 0)
    (hAT : ptlt A T) (hpT : ptle p T) (hTq : ptle T q) :
    cross T q p ≥ 0 := by
  have hATx : A.x ≤ T.x := ptlt_x _ _ hAT
  have hpTx : p.x ≤ T.x := ptle_x _ _ hpT
  have hTqx : T.x ≤ q.x := ptle_x _ _ hTq
  rcases lt_or_eq_of_le hATx with hlt | heq
  · have hid : (T.x - A.x) * cross T q p =
        (q.x - T.x) * cross A T p - (p.x - T.x) * cross A T q := by
      unfold cross; ring
    nlinarith [mul_nonneg (by omega : (0:Int) ≤ q.x - T.x) h1,
      mul_nonneg (by omega : (0:Int) ≤ T.x - p.x) (le_of_lt h2)]
  · exfalso
    have hyT : A.y < T.y := ptlt_y_of_x_eq _ _ hAT heq.symm.symm
    have hq : cross A T q = (T.x - A.x) * (q.y - A.y) - (T.y - A.y) * (q.x - A.x) := by
      unfold cross; ring
    rw [← heq] at hq
    simp at hq
    nlinarith

/-- Certificate propagating "q is strictly above this chain edge" one edge
down a strictly convex chain. -/
theorem cert_chain_down (A B C q : Point)
    (h1 : cross A B C > 0) (h2 : cross B C q > 0)
    (hAB : ptlt A B) (hBC : ptlt B C) (hCq : ptle C q) :
    cross A B q > 0 := by
  have hABx : A.x ≤ B.x := ptlt_x _ _ hAB
  have hBCx : B.x ≤ C.x := ptlt_x _ _ hBC
  have hCqx : C.x ≤ q.x := ptle_x _ _ hCq
  rcases lt_or_eq_of_le hBCx with hlt | heq
  · have hid : (C.x - B.x) * cross A B q =
        (q.x - B.x) * cross A B C + (B.x - A.x) * cross B C q := by
      unfold cross; ring
    nlinarith [mul_pos (by omega : (0:Int) < q.x - B.x) h1,
      mul_nonneg (by omega : (0:Int) ≤ B.x - A.x) (le_of_lt h2)]
  · exfalso
    have hyC : B.y < C.y := ptlt_y_of_x_eq _ _ hBC heq.symm.symm
    have hq : cross B C q = (C.x - B.x) * (q.y - B.y) - (C.y - B.y) * (q.x - B.x) := by
      unfold cross; ring
    rw [← heq] at hq
    simp at hq
    nlinarith

/-- The wedge certificate: a strictly convex chain corner `c -> v -> w`
supports the whole processed set, so any points `a` (left of `v`) above the
incoming edge line and `q` (right of `v`) above the outgoing edge line see
`v` strictly below the chord `a -> q`. -/
theorem cert_wedge (c v w a q : Point)
    (hcorner : cross c v w > 0)
    (hcv : ptlt c v) (hvw : ptlt v w)
    (ha1 : cross c v a ≥ 0) (hq2 : cross v w q ≥ 0)
    (hav : ptlt a v) (hvq : ptlt v q) :
    cross a v q > 0 := by
  have hcvx : c.x ≤ v.x := ptlt_x _ _ hcv
  have hvwx : v.x ≤ w.x := ptlt_x _ _ hvw
  have havx : a.x ≤ v.x := ptlt_x _ _ hav
  have hvqx : v.x ≤ q.x := ptlt_x _ _ hvq
  -- (i) c.x < v.x
  have hcvx' : c.x < v.x := by
    rcases lt_or_eq_of_le hcvx with h | h
    · exact h
    · exfalso
      have hyv : c.y < v.y := ptlt_y_of_x_eq _ _ hcv h
      have hw : cross c v w = (v.x - c.x) * (w.y - c.y) - (v.y - c.y) * (w.x - c.x) := by
        unfold cross; ring
      rw [← h] at hw
      simp at hw
      nlinarith
  -- (ii) a.x < v.x
  have havx' : a.x < v.x := by
    rcases lt_or_eq_of_le havx with h | h
    · exact h
    · exfalso
      have hya : a.y < v.y := ptlt_y_of_x_eq _ _ hav h
      have ha' : cross c v a = (v.x - c.x) * (a.y - c.y) - (v.y - c.y) * (a.x - c.x) := by
        unfold cross; ring
      rw [h] at ha'
      nlinarith
  -- goal in corner coordinates
  have hgoal : cross a v q =
      (q.x - v.x) * (a.y - v.y) - (q.y - v.y) * (a.x - v.x) := by
    unfold cross; ring
  rcases lt_or_eq_of_le hvwx with hwlt | hweq
  · -- w strictly right of v
    -- (iv-a) a strictly above the outgoing edge line
    have hvwa : cross v w a > 0 := by
      have hvwa' : cross v w a =
          (w.x - v.x) * (a.y - v.y) - (w.y - v.y) * (a.x - v.x) := by
        unfold cross; ring
      have hcva : cross c v a =
          (v.x - c.x) * (a.y - v.y) - (v.y - c.y) * (a.x - v.x) := by
        unfold cross; ring
      have hcvw : cross c v w =
          (v.x - c.x) * (w.y - v.y) - (v.y - c.y) * (w.x - v.x) := by
        unfold cross; ring
      -- identity: (cross v w a)*(c.x - v.x) = -(cross c v a)*(w.x - v.x) + (cross c v w)*(a.x - v.x)
      have hid : cross v w a * (c.x - v.x) =
          -(cross c v a) * (w.x - v.x) + cross c v w * (a.x - v.x) := by
        rw [hvwa', hcva, hcvw]; ring
      nlinarith [mul_nonneg ha1 (by omega : (0:Int) ≤ w.x - v.x),
        mul_pos hcorner (by omega : (0:Int) < v.x - a.x)]
    rcases lt_or_eq_of_le hvqx with hqlt | hqeq
    · -- q strictly right of v: combine both half-plane facts
      have hvwq' : cross v w q =
          (w.x - v.x) * (q.y - v.y) - (w.y - v.y) * (q.x - v.x) := by
        unfold cross; ring
      have hvwa' : cross v w a =
          (w.x - v.x) * (a.y - v.y) - (w.y - v.y) * (a.x - v.x) := by
        unfold cross; ring
      have hid2 : cross a v q * (w.x - v.x) =
          cross v w q * (v.x - a.x) + cross v w a * (q.x - v.x) := by
        rw [hgoal, hvwq', hvwa']; ring
      nlinarith [mul_nonneg hq2 (by omega : (0:Int) ≤ v.x - a.x),
        mul_pos hvwa (by omega : (0:Int) < q.x - v.x)]
    · -- q vertically above v
      have hqy : v.y < q.y := ptlt_y_of_x_eq _ _ hvq hqeq
      rw [hgoal, ← hqeq]
      simp
      nlinarith
  · -- w vertically above v: forces q in the same column, then direct
    have hwy : v.y < w.y := ptlt_y_of_x_eq _ _ hvw hweq
    have hq2' : cross v w q =
        (w.x - v.x) * (q.y - v.y) - (w.y - v.y) * (q.x - v.x) := by
      unfold cross; ring
    rw [← hweq] at hq2'
    simp at hq2'
    have hqxv : q.x = v.x := by nlinarith
    have hqy : v.y < q.y := ptlt_y_of_x_eq _ _ hvq hqxv.symm
    rw [hgoal, hqxv]
    simp
    nlinarith

/-- The consecutive chain edges of a stack held in reversed order (head =
top): each pair is (lower neighbour, upper neighbour) in chain direction. -/
def chainPairs : List Point → List (Point × Point)
  | b :: a :: rest => (a, b) :: chainPairs (a :: rest)
  | _ => []

/-- The consecutive chain triples of a stack held in reversed order, each
in chain direction (x, y, z) with z nearest the top. -/
def chainTriples : List Point → List (Point × Point × Point)
  | c :: b :: a :: rest => (a, b, c) :: chainTriples (b :: a :: rest)
  | _ => []

/-- Edges of the stack tail are edges of the stack. -/
theorem chainPairs_tail_mem (b a : Point) (rest : List Point) :
    ∀ pr ∈ chainPairs (a :: rest), pr ∈ chainPairs (b :: a :: rest) := by
  intro pr hpr
  simp only [chainPairs]
  exact List.mem_cons_of_mem _ hpr

/-- Triples of the stack tail are triples of the stack. -/
theorem chainTriples_tail_mem (b a : Point) (rest : List Point) :
    ∀ t ∈ chainTriples (a :: rest), t ∈ chainTriples (b :: a :: rest) := by
  intro t ht
  cases rest with
  | nil => simp [chainTriples] at ht
  | cons c rs =>
    simp only [chainTriples]
    exact List.mem_cons_of_mem _ ht

/-- A triple yields its two edges. -/
theorem chainTriples_to_pairs :
    ∀ (st : List Point) (x y z : Point), (x, y, z) ∈ chainTriples st →
      (x, y) ∈ chainPairs st ∧ (y, z) ∈ chainPairs st := by
  intro st
  induction st with
  | nil => intro x y z h; simp [chainTriples] at h
  | cons c rest ih =>
    intro x y z h
    match rest, h with
    | b :: a :: rs, h =>
      simp only [chainTriples, List.mem_cons] at h
      rcases h with h | h
      · obtain ⟨rfl, rfl, rfl⟩ := Prod.mk.injEq .. ▸ (by
          have h1 := congrArg Prod.fst h
          have h2 := congrArg (fun t => t.2.1) h
          have h3 := congrArg (fun t => t.2.2) h
          simp at h1 h2 h3
          exact ⟨h1, h2, h3⟩ : x = a ∧ y = b ∧ z = c)
        constructor
        · exact chainPairs_tail_mem _ _ _ _ (by simp [chainPairs])
        · simp [chainPairs]
      · have := ih x y z h
        exact ⟨chainPairs_tail_mem _ _ _ _ this.1, chainPairs_tail_mem _ _ _ _ this.2⟩

/-- Stack adjacency is strict when the reversed stack is a strict chain. -/
theorem chainPairs_ptlt :
    ∀ st : List Point, List.Chain' ptlt st.reverse →
      ∀ pr ∈ chainPairs st, ptlt pr.1 pr.2 := by
  intro st
  induction st with
  | nil => intro _ pr hpr; simp [chainPairs] at hpr
  | cons b rest ih =>
    intro hch pr hpr
    cases rest with
    | nil => simp [chainPairs] at hpr
    | cons a rs =>
      simp only [chainPairs, List.mem_cons] at hpr
      have hch' : List.Chain' ptlt (a :: rs).reverse ∧
          ∀ x , (a :: rs).reverse.getLast? = some x → ptlt x b := by
        have hrw : (b :: a :: rs).reverse = (a :: rs).reverse ++ [b] := by simp
        rw [hrw] at hch
        rcases List.chain'_append.mp hch with ⟨h1, _, h3⟩
        refine ⟨h1, fun x hx => h3 x hx b rfl⟩
      rcases hpr with rfl | hpr
      · have : (a :: rs).reverse.getLast? = some a := by
          rw [List.getLast?_reverse]
          rfl
        exact hch'.2 a this
      · exact ih hch'.1 pr hpr

/-- Chain property restricted to the stack tail. -/
theorem chain'_reverse_tail (b a : Point) (rs : List Point)
    (h : List.Chain' ptlt (b :: a :: rs).reverse) :
    List.Chain' ptlt (a :: rs).reverse := by
  have hrw : (b :: a :: rs).reverse = (a :: rs).reverse ++ [b] := by simp
  rw [hrw] at h
  exact (List.chain'_append.mp h).1

/-- `popWhile` never empties the stack. -/
theorem popWhile_ne_nil (q : Point) :
    ∀ st : List Point, st ≠ [] → popWhile q st ≠ [] := by
  intro st
  induction st with
  | nil => intro h; exact absurd rfl h
  | cons b rest ih =>
    intro _
    cases rest with
    | nil => simp [popWhile]
    | cons a rs =>
      simp only [popWhile]
      split
      · exact ih (by simp)
      · simp

/-- `popWhile` keeps the bottom of the stack. -/
theorem popWhile_getLast? (q : Point) :
    ∀ st : List Point, (popWhile q st).getLast? = st.getLast? := by
  intro st
  induction st with
  | nil => rfl
  | cons b rest ih =>
    cases rest with
    | nil => rfl
    | cons a rs =>
      simp only [popWhile]
      split
      · rw [ih]
        simp [List.getLast?_cons_cons]
      · rfl

/-- `popWhile` only removes elements. -/
theorem popWhile_subset (q : Point) :
    ∀ st : List Point, ∀ x ∈ popWhile q st, x ∈ st := by
  intro st
  induction st with
  | nil => intro x hx; simp [popWhile] at hx
  | cons b rest ih =>
    intro x hx
    cases rest with
    | nil => simpa [popWhile] using hx
    | cons a rs =>
      simp only [popWhile] at hx
      split at hx
      · exact List.mem_cons_of_mem _ (ih x hx)
      · exact hx

/-- `buildChain` of a nonempty list is nonempty. -/
theorem buildChain_ne_nil :
    ∀ l : List Point, l ≠ [] → buildChain l ≠ [] := by
  intro l
  induction l using List.reverseRecOn with
  | nil => intro h; exact absurd rfl h
  | append_singleton T q _ =>
    intro _
    rw [buildChain_append]
    simp

/-- The top of the chain stack is the last input point. -/
theorem buildChain_head? :
    ∀ l : List Point, l ≠ [] → (buildChain l).head? = l.getLast? := by
  intro l
  induction l using List.reverseRecOn with
  | nil => intro h; exact absurd rfl h
  | append_singleton T q _ =>
    intro _
    rw [buildChain_append, List.getLast?_concat]
    rfl

/-- The bottom of the chain stack is the first input point. -/
theorem buildChain_getLast? :
    ∀ l : List Point, (buildChain l).getLast? = l.head? := by
  intro l
  induction l using List.reverseRecOn with
  | nil => rfl
  | append_singleton T q ih =>
    rw [buildChain_append]
    cases hT : T with
    | nil => simp [buildChain, popWhile]
    | cons t ts =>
      have h1 : buildChain (t :: ts) ≠ [] := buildChain_ne_nil _ (by simp)
      have h2 : popWhile q (buildChain (t :: ts)) ≠ [] := popWhile_ne_nil _ _ h1
      calc (q :: popWhile q (buildChain (t :: ts))).getLast?
          = (popWhile q (buildChain (t :: ts))).getLast? := by
            cases hp : popWhile q (buildChain (t :: ts)) with
            | nil => exact absurd hp h2
            | cons u us => simp [List.getLast?_cons_cons]
        _ = (buildChain (t :: ts)).getLast? := popWhile_getLast? _ _
        _ = (t :: ts).head? := by rw [← hT, ih, hT]
        _ = ((t :: ts) ++ [q]).head? := by simp

/-- Antisymmetry of the comparator order. -/
theorem ptle_antisymm (a b : Point) (h1 : ptle a b) (h2 : ptle b a) : a = b := by
  cases a; cases b
  simp only [ptle, Point.mk.injEq] at *
  omega

/-- A point strictly above the stack's topmost edge is strictly above every
edge of a strictly convex stack. -/
theorem chain_edges_below_q (q : Point) :
    ∀ st : List Point,
    List.Chain' ptlt st.reverse →
    (∀ t ∈ chainTriples st, cross t.1 t.2.1 t.2.2 > 0) →
    (∀ x ∈ st, ptle x q) →
    (∀ t1 t2 rest2, st = t1 :: t2 :: rest2 → cross t2 t1 q > 0) →
    ∀ pr ∈ chainPairs st, cross pr.1 pr.2 q > 0 := by
  intro st
  induction st with
  | nil => intro _ _ _ _ pr hpr; simp [chainPairs] at hpr
  | cons t1 rest ih =>
    intro hch htri hle hstop pr hpr
    cases rest with
    | nil => simp [chainPairs] at hpr
    | cons t2 rs =>
      simp only [chainPairs, List.mem_cons] at hpr
      rcases hpr with rfl | hpr
      · exact hstop t1 t2 rs rfl
      · refine ih (chain'_reverse_tail _ _ _ hch)
          (fun t ht => htri t (chainTriples_tail_mem _ _ _ t ht))
          (fun x hx => hle x (List.mem_cons_of_mem _ hx)) ?_ pr hpr
        intro u1 u2 urs hurs
        injection hurs with e1 e2
        subst e2
        subst e1
        have htrip : cross u2 t2 t1 > 0 :=
          htri (u2, t2, t1) (by simp [chainTriples])
        have hstop' : cross t2 t1 q > 0 := hstop t1 t2 _ rfl
        have h21 : ptlt u2 t2 :=
          chainPairs_ptlt _ hch (u2, t2) (by simp [chainPairs])
        have h1t : ptlt t2 t1 :=
          chainPairs_ptlt _ hch (t2, t1) (by simp [chainPairs])
        exact cert_chain_down u2 t2 t1 q htrip hstop' h21 h1t (hle t1 (by simp))

/-- The full analysis of one popping phase: popping keeps the stack
nonempty, structured (ascending, strictly convex, supporting every
processed point), ends with the incoming point strictly above the new top
edge (when two points remain), and the new edge from the surviving top to
the incoming point supports every processed point. -/
theorem popWhile_main (q : Point) (processed : List Point)
    (hproc : ∀ p ∈ processed, ptle p q) :
    ∀ st : List Point, st ≠ [] →
    (∀ x ∈ st, x ∈ processed) →
    List.Chain' ptlt st.reverse →
    (∀ t ∈ chainTriples st, cross t.1 t.2.1 t.2.2 > 0) →
    (∀ p ∈ processed, ∀ pr ∈ chainPairs st, cross pr.1 pr.2 p ≥ 0) →
    (∀ t, st.head? = some t → ∀ p ∈ processed, ptlt t p → cross t q p ≥ 0) →
    (∀ gl, st.getLast? = some gl → ∀ p ∈ processed, ptle gl p) →
    ((popWhile q st) ≠ [] ∧
     (∀ x ∈ popWhile q st, x ∈ st) ∧
     List.Chain' ptlt (popWhile q st).reverse ∧
     (∀ t ∈ chainTriples (popWhile q st), cross t.1 t.2.1 t.2.2 > 0) ∧
     (∀ p ∈ processed, ∀ pr ∈ chainPairs (popWhile q st), cross pr.1 pr.2 p ≥ 0) ∧
     (∀ t, (popWhile q st).head? = some t → ∀ p ∈ processed, cross t q p ≥ 0) ∧
     (∀ t1 t2 rest2, popWhile q st = t1 :: t2 :: rest2 → cross t2 t1 q > 0)) := by
  intro st
  induction st with
  | nil => intro h; exact absurd rfl h
  | cons b rest ih =>
    intro _ hsub hch htri hsupp haux hbot
    cases rest with
    | nil =>
      refine ⟨by simp [popWhile], by simp [popWhile], by simp [popWhile],
        ?_, ?_, ?_, ?_⟩
      · intro t ht; simp [popWhile, chainTriples] at ht
      · intro p hp pr hpr; simp [popWhile, chainPairs] at hpr
      · intro t ht p hp
        have htb : b = t := by simpa [popWhile] using ht
        subst htb
        by_cases hlt : ptlt b p
        · exact haux b rfl p hp hlt
        · have h1 : ptle p b := ptle_of_not_ptlt _ _ hlt
          have h2 : ptle b p := hbot b rfl p hp
          have hpb : p = b := ptle_antisymm p b h1 h2
          rw [hpb, cross_outer]
      · intro t1 t2 rest2 heq
        simp [popWhile] at heq
    | cons a rs =>
      by_cases hpop : cross a b q ≤ 0
      · have hstep : popWhile q (b :: a :: rs) = popWhile q (a :: rs) := by
          simp only [popWhile]
          rw [if_pos hpop]
        have hab : ptlt a b :=
          chainPairs_ptlt _ hch (a, b) (by simp [chainPairs])
        have haux' : ∀ t, (a :: rs).head? = some t →
            ∀ p ∈ processed, ptlt t p → cross t q p ≥ 0 := by
          intro t ht p hp hlt
          have hta : a = t := by simpa using ht
          subst hta
          exact cert_pop a b q p (hsupp p hp (a, b) (by simp [chainPairs])) hpop
            hab hlt (hproc a (hsub a (by simp)))
        have hres := ih (by simp)
          (fun x hx => hsub x (List.mem_cons_of_mem _ hx))
          (chain'_reverse_tail _ _ _ hch)
          (fun t ht => htri t (chainTriples_tail_mem _ _ _ t ht))
          (fun p hp pr hpr => hsupp p hp pr (chainPairs_tail_mem _ _ _ pr hpr))
          haux'
          (fun gl hgl p hp => hbot gl (by
            simpa [List.getLast?_cons_cons] using hgl) p hp)
        rw [hstep]
        exact ⟨hres.1, fun x hx => List.mem_cons_of_mem _ (hres.2.1 x hx),
          hres.2.2.1, hres.2.2.2.1, hres.2.2.2.2.1, hres.2.2.2.2.2.1,
          hres.2.2.2.2.2.2⟩
      · have hstep : popWhile q (b :: a :: rs) = b :: a :: rs := by
          simp only [popWhile]
          rw [if_neg hpop]
        have hgt : cross a b q > 0 := not_le.mp hpop
        have hab : ptlt a b :=
          chainPairs_ptlt _ hch (a, b) (by simp [chainPairs])
        rw [hstep]
        refine ⟨by simp, fun x hx => hx, hch, htri, hsupp, ?_, ?_⟩
        · intro t ht p hp
          have htb : b = t := by simpa using ht
          subst htb
          by_cases hlt : ptlt b p
          · exact haux b rfl p hp hlt
          · exact cert_stop a b q p (hsupp p hp (a, b) (by simp [chainPairs]))
              hgt hab (ptle_of_not_ptlt _ _ hlt) (hproc b (hsub b (by simp)))
        · intro t1 t2 rest2 heq
          injection heq with e1 e2
          injection e2 with e2 e3
          subst e1
          subst e2
          exact hgt

/-- Invariant of the chain stack during a monotone-chain run over a sorted
input: the stack (in reversed order, head = top) is nonempty with the
first processed point `m` at the bottom, drawn from the processed points,
strictly ascending (except for the degenerate `[m, m]` shape that only
arises while all processed points equal `m`), strictly convex at every
consecutive triple, every processed point lies weakly above every stack
edge, and the top dominates all processed points. -/
structure StackInv (m : Point) (processed : List Point) (st : List Point) : Prop where
  ne : st ≠ []
  bottom : st.getLast? = some m
  subset : ∀ x ∈ st, x ∈ processed
  ascend : List.Chain' ptlt st.reverse ∨ (st = [m, m] ∧ ∀ p ∈ processed, p = m)
  triples : ∀ t ∈ chainTriples st, cross t.1 t.2.1 t.2.2 > 0
  supp : ∀ p ∈ processed, ∀ pr ∈ chainPairs st, cross pr.1 pr.2 p ≥ 0
  topmax : ∀ t, st.head? = some t → ∀ p ∈ processed, ptle p t

/-- `getLast?` of a cons with a nonempty tail. -/
theorem getLast?_cons_ne (q : Point) (l : List Point) (h : l ≠ []) :
    (q :: l).getLast? = l.getLast? := by
  cases l with
  | nil => exact absurd rfl h
  | cons a t => simp [List.getLast?_cons_cons]

/-- One step of the monotone-chain fold preserves the stack invariant. -/
theorem stackInv_step (m q : Point) (processed st : List Point)
    (inv : StackInv m processed st)
    (hproc : ∀ p ∈ processed, ptle p q)
    (hmin : ∀ p ∈ processed, ptle m p) :
    StackInv m (q :: processed) (q :: popWhile q st) := by
  have hmmem : m ∈ processed := inv.subset m (mem_of_getLast?_eq _ m inv.bottom)
  rcases inv.ascend with hch | ⟨hst, hall⟩
  · -- strict case
    have hmain := popWhile_main q processed hproc st inv.ne inv.subset hch
      inv.triples inv.supp
      (fun t ht p hp hlt => absurd hlt (not_ptlt_of_ptle _ _ (inv.topmax t ht p hp)))
      (fun gl hgl p hp => by
        rw [inv.bottom] at hgl
        exact (Option.some.inj hgl) ▸ hmin p hp)
    obtain ⟨hne, hsub', hch', htri', hsupp', hnew, hstop⟩ := hmain
    obtain ⟨t, rs, hr⟩ := List.exists_cons_of_ne_nil hne
    constructor
    · simp
    · rw [getLast?_cons_ne q _ hne, popWhile_getLast?]
      exact inv.bottom
    · intro x hx
      rcases List.mem_cons.mp hx with rfl | hx
      · exact List.mem_cons_self _ _
      · exact List.mem_cons_of_mem _ (inv.subset x (hsub' x hx))
    · by_cases hqt : q = t
      · right
        have hrs : rs = [] := by
          cases hrs : rs with
          | nil => rfl
          | cons t2 rs2 =>
            exfalso
            have := hstop t t2 rs2 (by rw [hr, hrs])
            rw [← hqt] at this
            rw [cross_self_right] at this
            exact lt_irrefl 0 this
        have htm : t = m := by
          have := popWhile_getLast? q st
          rw [hr, hrs, inv.bottom] at this
          simpa using this
        have hqm : q = m := by rw [hqt, htm]
        refine ⟨by rw [hr, hrs, hqm, htm], ?_⟩
        intro p hp
        rcases List.mem_cons.mp hp with rfl | hp
        · exact hqm
        · exact ptle_antisymm p m (hqm ▸ hproc p hp) (hmin p hp)
      · left
        have hrw : (q :: popWhile q st).reverse = (popWhile q st).reverse ++ [q] := by
          simp
        rw [hrw]
        refine List.chain'_append.mpr ⟨hch', List.chain'_singleton q, ?_⟩
        intro x hx y hy
        have hxy : q = y := by simpa using hy
        have hxt : t = x := by
          rw [List.getLast?_reverse, hr] at hx
          simpa using hx
        subst hxy
        subst hxt
        refine ptlt_of_ptle_ne _ _ (hproc t (inv.subset t (hsub' t (by rw [hr]; simp)))) ?_
        intro htq
        exact hqt htq.symm
    · intro tr htr
      rw [hr] at htr
      cases hrs : rs with
      | nil =>
        rw [hrs] at htr
        simp [chainTriples] at htr
      | cons t2 rs2 =>
        rw [hrs] at htr
        simp only [chainTriples, List.mem_cons] at htr
        rcases htr with rfl | htr
        · exact hstop t t2 rs2 (by rw [hr, hrs])
        · exact htri' tr (by rw [hr, hrs]; exact htr)
    · intro p hp pr hpr
      rw [hr] at hpr
      simp only [chainPairs, List.mem_cons] at hpr
      rcases List.mem_cons.mp hp with hpq | hpmem
      · rw [hpq]
        rcases hpr with rfl | hpr
        · exact ge_of_eq (cross_self_right _ _)
        · have := chain_edges_below_q q (popWhile q st) hch' htri'
            (fun x hx => hproc x (inv.subset x (hsub' x hx)))
            hstop pr (by rw [hr]; exact hpr)
          exact le_of_lt this
      · rcases hpr with rfl | hpr
        · exact hnew t (by rw [hr]; rfl) p hpmem
        · exact hsupp' p hpmem pr (by rw [hr]; exact hpr)
    · intro u hu p hp
      have huq : q = u := by simpa using hu
      subst huq
      rcases List.mem_cons.mp hp with rfl | hp
      · exact ptle_refl p
      · exact hproc p hp
  · -- degenerate [m, m] stack: all processed points equal m
    have hpw : popWhile q st = [m] := by
      rw [hst]
      simp only [popWhile]
      rw [if_pos (by rw [cross_self_left])]
    rw [hpw]
    constructor
    · simp
    · rfl
    · intro x hx
      rcases List.mem_cons.mp hx with rfl | hx
      · exact List.mem_cons_self _ _
      · have : x = m := by simpa using hx
        exact this ▸ List.mem_cons_of_mem _ hmmem
    · by_cases hqm : q = m
      · right
        exact ⟨by rw [hqm], fun p hp => by
          rcases List.mem_cons.mp hp with rfl | hp
          · exact hqm
          · exact hall p hp⟩
      · left
        simp only [List.reverse_cons, List.reverse_nil, List.nil_append]
        refine List.chain'_cons.mpr ⟨?_, List.chain'_singleton q⟩
        exact ptlt_of_ptle_ne _ _ (hproc m hmmem) (fun h => hqm h.symm)
    · intro t ht
      simp [chainTriples] at ht
    · intro p hp pr hpr
      simp only [chainPairs, List.mem_cons] at hpr
      rcases hpr with rfl | hpr
      · rcases List.mem_cons.mp hp with rfl | hp
        · rw [cross_self_right]
        · rw [hall p hp, cross_outer]
      · simp [chainPairs] at hpr
    · intro u hu p hp
      have huq : q = u := by simpa using hu
      subst huq
      rcases List.mem_cons.mp hp with rfl | hp
      · exact ptle_refl p
      · exact hproc p hp

/-- The invariant only depends on which points were processed. -/
theorem stackInv_congr (m : Point) (P P' st : List Point)
    (h : ∀ x, x ∈ P ↔ x ∈ P') (inv : StackInv m P st) : StackInv m P' st := by
  constructor
  · exact inv.ne
  · exact inv.bottom
  · exact fun x hx => (h x).mp (inv.subset x hx)
  · rcases inv.ascend with hc | ⟨h1, h2⟩
    · exact Or.inl hc
    · exact Or.inr ⟨h1, fun p hp => h2 p ((h p).mpr hp)⟩
  · exact inv.triples
  · exact fun p hp pr hpr => inv.supp p ((h p).mpr hp) pr hpr
  · exact fun t ht p hp => inv.topmax t ht p ((h p).mpr hp)

/-- The invariant at the start of a run, after the first point is pushed. -/
theorem stackInv_init (m : Point) : StackInv m [m] [m] := by
  constructor
  · simp
  · rfl
  · simp
  · left; simp
  · intro t ht; simp [chainTriples] at ht
  · intro p hp pr hpr; simp [chainPairs] at hpr
  · intro t ht p hp
    have h1 : m = t := by simpa using ht
    have h2 : p = m := by simpa using hp
    rw [← h1, h2]
    exact ptle_refl m

/-- `buildChain` as a fold starting from the singleton first stack. -/
theorem buildChain_eq_foldl (m : Point) (rest : List Point) :
    buildChain (m :: rest) =
      rest.foldl (fun acc p => p :: popWhile p acc) [m] := by
  simp [buildChain, List.foldl_cons, popWhile]

/-- Folding the remaining sorted points preserves the invariant. -/
theorem stackInv_foldl (m : Point) :
    ∀ (pending processed st : List Point),
    StackInv m processed st →
    (∀ p ∈ processed, ∀ x ∈ pending, ptle p x) →
    List.Sorted ptle pending →
    (∀ p ∈ processed, ptle m p) →
    StackInv m (processed ++ pending)
      (pending.foldl (fun acc p => p :: popWhile p acc) st) := by
  intro pending
  induction pending with
  | nil =>
    intro processed st inv _ _ _
    simpa using inv
  | cons q rest ih =>
    intro processed st inv hdom hsort hmin
    have hstep := stackInv_step m q processed st inv
      (fun p hp => hdom p hp q (List.mem_cons_self _ _)) hmin
    have hstep' : StackInv m (processed ++ [q]) (q :: popWhile q st) :=
      stackInv_congr m _ _ _ (fun x => by simp; tauto) hstep
    have hmin' : ∀ p ∈ processed ++ [q], ptle m p := by
      intro p hp
      rcases List.mem_append.mp hp with hp | hp
      · exact hmin p hp
      · have hpq : p = q := by simpa using hp
        rw [hpq]
        exact hdom m (inv.subset m (mem_of_getLast?_eq _ m inv.bottom)) q
          (List.mem_cons_self _ _)
    have hdom' : ∀ p ∈ processed ++ [q], ∀ x ∈ rest, ptle p x := by
      intro p hp x hx
      rcases List.mem_append.mp hp with hp | hp
      · exact hdom p hp x (List.mem_cons_of_mem _ hx)
      · have hpq : p = q := by simpa using hp
        rw [hpq]
        exact List.rel_of_sorted_cons hsort x hx
    have hrec := ih (processed ++ [q]) _ hstep' hdom' hsort.of_cons hmin'
    refine stackInv_congr m (processed ++ [q] ++ rest) (processed ++ q :: rest) _
      (fun x => by simp) ?_
    simpa [List.foldl_cons] using hrec

/-- The full invariant of the finished chain over a sorted input. -/
theorem buildChain_stackInv (m : Point) (rest : List Point)
    (hsort : List.Sorted ptle (m :: rest)) :
    StackInv m (m :: rest) (buildChain (m :: rest)) := by
  have hrun := stackInv_foldl m rest [m] [m] (stackInv_init m)
    (fun p hp x hx => by
      have hpm : p = m := by simpa using hp
      rw [hpm]
      exact List.rel_of_sorted_cons hsort x hx)
    hsort.of_cons
    (fun p hp => by
      have hpm : p = m := by simpa using hp
      rw [hpm]
      exact ptle_refl m)
  rw [buildChain_eq_foldl]
  exact stackInv_congr m _ _ _ (fun x => by simp) hrun

/-- A point strictly below every spanning chord is never popped. -/
theorem mem_popWhile_of_extremal (q v : Point) (processed : List Point)
    (hext : ∀ a ∈ processed, ptlt a v → cross a v q > 0) :
    ∀ st, v ∈ st → (∀ x ∈ st, x ∈ processed) →
      List.Chain' ptlt st.reverse →
      v ∈ popWhile q st := by
  intro st
  induction st with
  | nil => intro h; simp at h
  | cons b rest ih =>
    intro hv hsub hch
    cases rest with
    | nil => simpa [popWhile] using hv
    | cons a rs =>
      by_cases hpop : cross a b q ≤ 0
      · have hstep : popWhile q (b :: a :: rs) = popWhile q (a :: rs) := by
          simp only [popWhile]
          rw [if_pos hpop]
        rw [hstep]
        have hab : ptlt a b := chainPairs_ptlt _ hch (a, b) (by simp [chainPairs])
        have hvb : v ≠ b := by
          intro hvb
          subst hvb
          exact absurd hpop (not_le.mpr (hext a (hsub a (by simp)) hab))
        refine ih ?_ (fun x hx => hsub x (List.mem_cons_of_mem _ hx))
          (chain'_reverse_tail _ _ _ hch)
        rcases List.mem_cons.mp hv with rfl | hv
        · exact absurd rfl hvb
        · exact hv
      · have hstep : popWhile q (b :: a :: rs) = b :: a :: rs := by
          simp only [popWhile]
          rw [if_neg hpop]
        rw [hstep]
        exact hv

/-- Through the whole fold, a point strictly below every spanning chord of
the ambient set `U` stays on the stack. -/
theorem survives_foldl (m v : Point) (U : List Point)
    (hext : ∀ a q', a ∈ U → q' ∈ U → ptlt a v → ptlt v q' → cross a v q' > 0) :
    ∀ (pending processed st : List Point),
    StackInv m processed st →
    (∀ p ∈ processed, ∀ x ∈ pending, ptle p x) →
    List.Sorted ptle pending →
    (∀ p ∈ processed, ptle m p) →
    (∀ p ∈ processed, p ∈ U) →
    (∀ x ∈ pending, x ∈ U) →
    (v ∈ st ∨ v ∈ pending) →
    v ∈ pending.foldl (fun acc p => p :: popWhile p acc) st := by
  intro pending
  induction pending with
  | nil =>
    intro processed st _ _ _ _ _ _ hv
    rcases hv with hv | hv
    · simpa using hv
    · simp at hv
  | cons q rest ih =>
    intro processed st inv hdom hsort hmin hPU hpendU hv
    have hstep := stackInv_step m q processed st inv
      (fun p hp => hdom p hp q (List.mem_cons_self _ _)) hmin
    have hstep' : StackInv m (processed ++ [q]) (q :: popWhile q st) :=
      stackInv_congr m _ _ _ (fun x => by simp; tauto) hstep
    have hmin' : ∀ p ∈ processed ++ [q], ptle m p := by
      intro p hp
      rcases List.mem_append.mp hp with hp | hp
      · exact hmin p hp
      · have hpq : p = q := by simpa using hp
        rw [hpq]
        exact hdom m (inv.subset m (mem_of_getLast?_eq _ m inv.bottom)) q
          (List.mem_cons_self _ _)
    have hdom' : ∀ p ∈ processed ++ [q], ∀ x ∈ rest, ptle p x := by
      intro p hp x hx
      rcases List.mem_append.mp hp with hp | hp
      · exact hdom p hp x (List.mem_cons_of_mem _ hx)
      · have hpq : p = q := by simpa using hp
        rw [hpq]
        exact List.rel_of_sorted_cons hsort x hx
    have hPU' : ∀ p ∈ processed ++ [q], p ∈ U := by
      intro p hp
      rcases List.mem_append.mp hp with hp | hp
      · exact hPU p hp
      · have hpq : p = q := by simpa using hp
        rw [hpq]
        exact hpendU q (List.mem_cons_self _ _)
    have hpendU' : ∀ x ∈ rest, x ∈ U :=
      fun x hx => hpendU x (List.mem_cons_of_mem _ hx)
    have hv' : v ∈ (q :: popWhile q st) ∨ v ∈ rest := by
      rcases hv with hv | hv
      · left
        by_cases hvm : v = m
        · subst hvm
          exact List.mem_cons_of_mem _ (mem_of_getLast?_eq _ _
            (by rw [popWhile_getLast?]; exact inv.bottom))
        · rcases inv.ascend with hch | ⟨hst, hall⟩
          · by_cases hvq : v = q
            · rw [hvq]
              exact List.mem_cons_self _ _
            · refine List.mem_cons_of_mem _
                (mem_popWhile_of_extremal q v processed ?_ st hv inv.subset hch)
              intro a ha hav
              refine hext a q (hPU a ha) (hpendU q (List.mem_cons_self _ _)) hav ?_
              exact ptlt_of_ptle_ne _ _
                (hdom v (inv.subset v hv) q (List.mem_cons_self _ _)) hvq
          · exfalso
            rw [hst] at hv
            rcases List.mem_cons.mp hv with h | h
            · exact hvm h
            · exact hvm (by simpa using h)
      · rcases List.mem_cons.mp hv with h | h
        · left
          rw [h]
          exact List.mem_cons_self _ _
        · right
          exact h
    have hrec := ih (processed ++ [q]) _ hstep' hdom' hsort.of_cons hmin'
      hPU' hpendU' hv'
    simpa [List.foldl_cons] using hrec

/-- Every member of a sorted input that is strictly below all spanning
chords of the input survives into the chain. -/
theorem mem_buildChain_of_extremal (T : List Point) (v : Point)
    (hsort : List.Sorted ptle T) (hvT : v ∈ T)
    (hext : ∀ a q', a ∈ T → q' ∈ T → ptlt a v → ptlt v q' → cross a v q' > 0) :
    v ∈ buildChain T := by
  cases T with
  | nil => simp at hvT
  | cons m rest =>
    rw [buildChain_eq_foldl]
    refine survives_foldl m v (m :: rest) hext rest [m] [m] (stackInv_init m)
      (fun p hp x hx => by
        have hpm : p = m := by simpa using hp
        rw [hpm]
        exact List.rel_of_sorted_cons hsort x hx)
      hsort.of_cons
      (fun p hp => by
        have hpm : p = m := by simpa using hp
        rw [hpm]
        exact ptle_refl m)
      (fun p hp => by
        have hpm : p = m := by simpa using hp
        rw [hpm]
        exact List.mem_cons_self _ _)
      (fun x hx => List.mem_cons_of_mem _ hx)
      ?_
    rcases List.mem_cons.mp hvT with h | h
    · left
      rw [h]
      exact List.mem_cons_self _ _
    · right
      exact h

instance : IsTrans Point ptlt := by
  constructor
  intro a b c hab hbc
  unfold ptlt at *
  omega

/-- `ptlt` is irreflexive. -/
theorem ptlt_irrefl (a : Point) (h : ptlt a a) : False := by
  rcases h with h | ⟨_, h⟩ <;> omega

/-- `ptlt` composes with `ptle` on the right. -/
theorem ptlt_ptle_trans (a b c : Point) (h1 : ptlt a b) (h2 : ptle b c) :
    ptlt a c := by
  unfold ptlt ptle at *
  omega

/-- Position of a member of the stack tail: the bottom, or the middle of a
consecutive triple. -/
theorem tail_mem_structure :
    ∀ (st : List Point) (v : Point), v ∈ st.tail →
      st.getLast? = some v ∨ ∃ x z, (x, v, z) ∈ chainTriples st := by
  intro st
  induction st with
  | nil => intro v hv; simp at hv
  | cons b rest ih =>
    intro v hv
    simp only [List.tail_cons] at hv
    cases rest with
    | nil => simp at hv
    | cons a rs =>
      rcases List.mem_cons.mp hv with hva | hv
      · cases rs with
        | nil =>
          left
          rw [hva]
          simp
        | cons c rs2 =>
          right
          refine ⟨c, b, ?_⟩
          rw [← hva]
          simp [chainTriples]
      · have hres := ih v (by simpa using hv)
        rcases hres with h | ⟨x, z, h⟩
        · left
          rw [List.getLast?_cons_cons]
          exact h
        · right
          exact ⟨x, z, chainTriples_tail_mem _ _ _ _ h⟩

/-- The head of a strictly ascending stack does not recur in its tail. -/
theorem head_not_mem_tail_of_chain (t : Point) (ts : List Point)
    (hch : List.Chain' ptlt (t :: ts).reverse) : t ∉ ts := by
  have h1 : List.Pairwise ptlt (t :: ts).reverse := List.chain'_iff_pairwise.mp hch
  have h2 : List.Pairwise (fun a b => ptlt b a) (t :: ts) :=
    List.pairwise_reverse.mp h1
  intro hmem
  exact ptlt_irrefl t ((List.pairwise_cons.mp h2).1 t hmem)

/-- Every vertex of the finished chain's tail is strictly below every
spanning chord of the input points. -/
theorem tail_vertex_extremal (m : Point) (rest : List Point)
    (hsort : List.Sorted ptle (m :: rest)) (v : Point)
    (hv : v ∈ (buildChain (m :: rest)).tail) :
    ∀ a q, a ∈ m :: rest → q ∈ m :: rest → ptlt a v → ptlt v q →
      cross a v q > 0 := by
  intro a q ha hq hav hvq
  have inv := buildChain_stackInv m rest hsort
  rcases tail_mem_structure _ v hv with hlast | ⟨x, z, htr⟩
  · exfalso
    rw [inv.bottom] at hlast
    have hvm : m = v := Option.some.inj hlast
    have hminv : ptle m a := by
      rcases List.mem_cons.mp ha with h | ha'
      · rw [h]
        exact ptle_refl m
      · exact List.rel_of_sorted_cons hsort a ha'
    rw [hvm] at hminv
    exact not_ptlt_of_ptle _ _ hminv hav
  · have hcorner := inv.triples (x, v, z) htr
    have hpairs := chainTriples_to_pairs _ x v z htr
    have hLeft : List.Chain' ptlt (buildChain (m :: rest)).reverse := by
      rcases inv.ascend with hch | ⟨hst, _⟩
      · exact hch
      · rw [hst] at htr
        simp [chainTriples] at htr
    have hxv : ptlt x v := chainPairs_ptlt _ hLeft (x, v) hpairs.1
    have hvz : ptlt v z := chainPairs_ptlt _ hLeft (v, z) hpairs.2
    have ha1 : cross x v a ≥ 0 := inv.supp a ha (x, v) hpairs.1
    have hq2 : cross v z q ≥ 0 := inv.supp q hq (v, z) hpairs.2
    exact cert_wedge x v z a q hcorner hxv hvz ha1 hq2 hav hvq

/-- A member strictly below all spanning chords that is not the maximum
lies in the tail of the chain built over the sorted order of its list. -/
theorem extremal_mem_chain_tail (R : List Point) (v w : Point)
    (hvR : v ∈ R) (hwR : w ∈ R) (hvw : ptlt v w)
    (hext : ∀ a q, a ∈ R → q ∈ R → ptlt a v → ptlt v q → cross a v q > 0) :
    v ∈ (buildChain (sortPoints R)).tail := by
  have hperm : List.Perm (sortPoints R) R := List.perm_insertionSort ptle R
  have hsort : List.Sorted ptle (sortPoints R) := List.sorted_insertionSort ptle R
  have hvS : v ∈ sortPoints R := hperm.mem_iff.mpr hvR
  have hSne : sortPoints R ≠ [] := by
    intro h
    rw [h] at hvS
    simp at hvS
  have hmem : v ∈ buildChain (sortPoints R) :=
    mem_buildChain_of_extremal _ v hsort hvS
      (fun a q' ha hq' h1 h2 =>
        hext a q' (hperm.mem_iff.mp ha) (hperm.mem_iff.mp hq') h1 h2)
  obtain ⟨t, rs, hbc⟩ :=
    List.exists_cons_of_ne_nil (buildChain_ne_nil (sortPoints R) hSne)
  have hht : (buildChain (sortPoints R)).head? = (sortPoints R).getLast? :=
    buildChain_head? _ hSne
  rw [hbc] at hht
  have hlastt : (sortPoints R).getLast? = some t := by
    rw [← hht]
    rfl
  have hwt : ptle w t :=
    sorted_le_getLast _ t hsort hlastt w (hperm.mem_iff.mpr hwR)
  have hvt : v ≠ t := by
    intro hvt
    exact ptlt_irrefl t (hvt ▸ ptlt_ptle_trans v w t hvw hwt)
  rw [hbc]
  simp only [List.tail_cons]
  rcases List.mem_cons.mp (hbc ▸ hmem) with h | h
  · exact absurd h hvt
  · exact h

/-- Chain membership implies input membership. -/
theorem buildChain_subset :
    ∀ l : List Point, ∀ x ∈ buildChain l, x ∈ l := by
  intro l
  induction l using List.reverseRecOn with
  | nil => intro x hx; simp [buildChain] at hx
  | append_singleton T q ih =>
    intro x hx
    rw [buildChain_append] at hx
    rcases List.mem_cons.mp hx with h | hx
    · rw [h]
      simp
    · exact List.mem_append_left _ (ih x (popWhile_subset _ _ x hx))

/-- The convex hull function only ever returns input points. -/
theorem hull_subset (P : List Point) : ∀ x ∈ getConvexHull P, x ∈ P := by
  intro x hx
  unfold getConvexHull at hx
  split at hx
  · exact hx
  · have hperm : List.Perm (sortPoints P) P := List.perm_insertionSort ptle P
    rcases List.mem_append.mp hx with h | h
    · have h1 : x ∈ (buildChain (sortPoints P)).tail := List.mem_reverse.mp h
      exact hperm.mem_iff.mp
        (buildChain_subset _ x (List.mem_of_mem_tail h1))
    · have h1 : x ∈ (buildChain (sortPoints P).reverse).tail := List.mem_reverse.mp h
      exact hperm.mem_iff.mp (List.mem_reverse.mp
        (buildChain_subset _ x (List.mem_of_mem_tail h1)))

/-- If every input point is the same, the finished chain has at most one
point after its top. -/
theorem chain_tail_small (m : Point) (rest : List Point)
    (hsort : List.Sorted ptle (m :: rest)) (hall : ∀ x ∈ m :: rest, x = m) :
    (buildChain (m :: rest)).tail.length ≤ 1 := by
  have inv := buildChain_stackInv m rest hsort
  rcases inv.ascend with hch | ⟨hst, _⟩
  · cases hbc : buildChain (m :: rest) with
    | nil => simp
    | cons t ts =>
      cases hts : ts with
      | nil => simp
      | cons t2 ts2 =>
        exfalso
        rw [hbc, hts] at hch
        have hp : ptlt t2 t :=
          chainPairs_ptlt _ hch (t2, t) (by simp [chainPairs])
        have h1 : t = m := hall t (inv.subset t (by rw [hbc]; simp))
        have h2 : t2 = m := hall t2 (inv.subset t2 (by rw [hbc, hts]; simp))
        rw [h1, h2] at hp
        exact ptlt_irrefl m hp
  · rw [hst]
    simp

/-- The chain over at least two points keeps at least two points. -/
theorem buildChain_two_le :
    ∀ l : List Point, 2 ≤ l.length → 2 ≤ (buildChain l).length := by
  intro l
  induction l using List.reverseRecOn with
  | nil => intro h; simp at h
  | append_singleton T q _ =>
    intro hlen
    rw [buildChain_append]
    have hT : T ≠ [] := by
      intro h
      rw [h] at hlen
      simp at hlen
    have h1 : popWhile q (buildChain T) ≠ [] :=
      popWhile_ne_nil _ _ (buildChain_ne_nil _ hT)
    cases hp : popWhile q (buildChain T) with
    | nil => exact absurd hp h1
    | cons u us => simp

/-- Point reflection through the origin, used to transfer upper-chain facts
to lower-chain facts. -/
def negP (p : Point) : Point := ⟨-p.x, -p.y⟩

/-- Reflection is an involution. -/
theorem negP_invol (p : Point) : negP (negP p) = p := by
  simp [negP]

/-- The cross product is invariant under point reflection. -/
theorem cross_negP (o a b : Point) :
    cross (negP o) (negP a) (negP b) = cross o a b := by
  simp only [cross, negP]
  ring

/-- Reflection reverses the comparator order. -/
theorem ptle_negP (a b : Point) : ptle (negP a) (negP b) ↔ ptle b a := by
  simp only [ptle, negP]
  omega

/-- Reflection reverses the strict comparator order. -/
theorem ptlt_negP (a b : Point) : ptlt (negP a) (negP b) ↔ ptlt b a := by
  simp only [ptlt, negP]
  omega

/-- Membership under the reflection map. -/
theorem mem_map_negP (x : Point) (l : List Point) :
    x ∈ l.map negP ↔ negP x ∈ l := by
  constructor
  · intro h
    rcases List.mem_map.mp h with ⟨y, hy, hyx⟩
    rw [← hyx, negP_invol]
    exact hy
  · intro h
    exact List.mem_map.mpr ⟨negP x, h, negP_invol x⟩

/-- Reflecting a list twice is the identity. -/
theorem map_negP_invol (l : List Point) : (l.map negP).map negP = l := by
  rw [List.map_map]
  have : negP ∘ negP = id := by
    funext p
    simp [negP_invol]
  rw [this, List.map_id]

/-- Popping commutes with reflection. -/
theorem popWhile_map_negP (q : Point) :
    ∀ st, popWhile (negP q) (st.map negP) = (popWhile q st).map negP := by
  intro st
  induction st with
  | nil => rfl
  | cons b rest ih =>
    cases rest with
    | nil => rfl
    | cons a rs =>
      simp only [List.map_cons, popWhile, cross_negP]
      by_cases hc : cross a b q ≤ 0
      · rw [if_pos hc, if_pos hc]
        have := ih
        simpa [List.map_cons] using this
      · rw [if_neg hc, if_neg hc]
        simp

/-- The chain fold commutes with reflection. -/
theorem foldl_map_negP :
    ∀ (l acc : List Point),
      (l.map negP).foldl (fun st p => p :: popWhile p st) (acc.map negP) =
        (l.foldl (fun st p => p :: popWhile p st) acc).map negP := by
  intro l
  induction l with
  | nil => intro acc; rfl
  | cons q rest ih =>
    intro acc
    simp only [List.map_cons, List.foldl_cons]
    rw [show negP q :: popWhile (negP q) (acc.map negP) =
        (q :: popWhile q acc).map negP from by
      rw [popWhile_map_negP]
      rfl]
    exact ih _

/-- The chain construction commutes with reflection. -/
theorem buildChain_map_negP (l : List Point) :
    buildChain (l.map negP) = (buildChain l).map negP := by
  unfold buildChain
  simpa using foldl_map_negP l []

/-- Sorting the reflected points produces the reflected reversed sort. -/
theorem sortPoints_reverse_negP (P : List Point) :
    (sortPoints P).reverse = (sortPoints (P.map negP)).map negP := by
  have h1 : List.Sorted ptle (sortPoints (P.map negP)) :=
    List.sorted_insertionSort ptle (P.map negP)
  have h2 : List.Sorted ptle ((sortPoints P).reverse.map negP) := by
    have hs : List.Sorted ptle (sortPoints P) := List.sorted_insertionSort ptle P
    rw [List.Sorted, List.pairwise_map, List.pairwise_reverse]
    refine (List.Pairwise.imp ?_ hs)
    intro a b hab
    exact (ptle_negP b a).mpr hab
  have hperm : List.Perm ((sortPoints P).reverse.map negP)
      (sortPoints (P.map negP)) := by
    refine List.Perm.trans (List.Perm.map negP ?_)
      (List.perm_insertionSort ptle (P.map negP)).symm
    exact List.Perm.trans (List.reverse_perm _) (List.perm_insertionSort ptle P)
  have heq := List.eq_of_perm_of_sorted hperm h2 h1
  calc (sortPoints P).reverse
      = ((sortPoints P).reverse.map negP).map negP := (map_negP_invol _).symm
    _ = (sortPoints (P.map negP)).map negP := by rw [heq]

/-- Extremality of chain-tail vertices, for any nonempty sorted input. -/
theorem tail_vertex_extremal' (T : List Point) (hT : T ≠ [])
    (hsort : List.Sorted ptle T) (v : Point)
    (hv : v ∈ (buildChain T).tail) :
    ∀ a q, a ∈ T → q ∈ T → ptlt a v → ptlt v q → cross a v q > 0 := by
  obtain ⟨m, rest, rfl⟩ := List.exists_cons_of_ne_nil hT
  exact tail_vertex_extremal m rest hsort v hv

/-- The last element of a list with at least two elements is in its tail. -/
theorem getLast?_mem_tail (l : List Point) (g : Point)
    (h2 : 2 ≤ l.length) (hg : l.getLast? = some g) : g ∈ l.tail := by
  cases l with
  | nil => simp at h2
  | cons t ts =>
    cases ts with
    | nil => simp at h2
    | cons u us =>
      simp only [List.tail_cons]
      refine mem_of_getLast?_eq _ g ?_
      rw [← hg, List.getLast?_cons_cons]

/-- A chain-tail vertex differs from the maximum of a non-constant sorted
input (the chain top). -/
theorem tail_ne_top (T : List Point) (hT : T ≠ [])
    (hsort : List.Sorted ptle T) (v g : Point)
    (hv : v ∈ (buildChain T).tail) (hg : T.getLast? = some g)
    (hne : ∃ a ∈ T, ∃ b ∈ T, a ≠ b) :
    v ≠ g := by
  obtain ⟨m, rest, rfl⟩ := List.exists_cons_of_ne_nil hT
  have inv := buildChain_stackInv m rest hsort
  obtain ⟨t, ts, hbc⟩ :=
    List.exists_cons_of_ne_nil (buildChain_ne_nil (m :: rest) (by simp))
  have hht : t = g := by
    have hh := buildChain_head? (m :: rest) (by simp)
    rw [hbc, hg] at hh
    exact Option.some.inj hh
  rcases inv.ascend with hch | ⟨_, hall⟩
  · intro hvg
    rw [hbc] at hv
    simp only [List.tail_cons] at hv
    rw [hvg, ← hht] at hv
    exact head_not_mem_tail_of_chain t ts (hbc ▸ hch) hv
  · obtain ⟨a, ha, b, hb, hab⟩ := hne
    exact absurd ((hall a ha).trans (hall b hb).symm) hab

/-- On inputs of length at most two the hull function is the identity. -/
theorem getConvexHull_small_len (L : List Point) (h : L.length ≤ 2) :
    getConvexHull L = L := by
  unfold getConvexHull
  rw [if_pos h]

/-- On inputs of length at least three the hull is the concatenation of the
two reversed chain tails. -/
theorem getConvexHull_big (L : List Point) (h : ¬ L.length ≤ 2) :
    getConvexHull L = (buildChain (sortPoints L)).tail.reverse ++
      (buildChain (sortPoints L).reverse).tail.reverse := by
  unfold getConvexHull
  rw [if_neg h]

/-- C8: the convex hull function is idempotent: the vertex set of
`getConvexHull (getConvexHull P)` equals the vertex set of
`getConvexHull P`, for every point list `P`. -/
theorem C8_hull_idempotent (P : List Point) :
    (getConvexHull (getConvexHull P)).toFinset = (getConvexHull P).toFinset := by
  by_cases hP : P.length ≤ 2
  · rw [getConvexHull_small_len P hP, getConvexHull_small_len P hP]
  · by_cases hH2 : (getConvexHull P).length ≤ 2
    · rw [getConvexHull_small_len (getConvexHull P) hH2]
    · -- main case: at least three points, hull with at least three vertices
      have hSperm : List.Perm (sortPoints P) P := List.perm_insertionSort ptle P
      have hSsort : List.Sorted ptle (sortPoints P) :=
        List.sorted_insertionSort ptle P
      have hSlen : (sortPoints P).length = P.length := hSperm.length_eq
      have hSne : sortPoints P ≠ [] := by
        intro h
        rw [h] at hSlen
        simp at hSlen
        omega
      have hHeq : getConvexHull P =
          (buildChain (sortPoints P)).tail.reverse ++
            (buildChain (sortPoints P).reverse).tail.reverse :=
        getConvexHull_big P hP
      -- minimum and maximum of the sorted input
      obtain ⟨m, hm⟩ : ∃ m, (sortPoints P).head? = some m := by
        cases hS : sortPoints P with
        | nil => exact absurd hS hSne
        | cons a l => exact ⟨a, rfl⟩
      obtain ⟨M, hM⟩ : ∃ M, (sortPoints P).getLast? = some M := by
        cases hS : (sortPoints P).getLast? with
        | none => exact absurd (List.getLast?_eq_none_iff.mp hS) hSne
        | some a => exact ⟨a, rfl⟩
      have hmin : ∀ p ∈ sortPoints P, ptle m p :=
        sorted_head_le _ m hSsort hm
      have hmax : ∀ p ∈ sortPoints P, ptle p M :=
        sorted_le_getLast _ M hSsort hM
      have hmS : m ∈ sortPoints P := List.mem_of_mem_head? (Option.mem_def.mpr hm)
      have hMS : M ∈ sortPoints P := mem_of_getLast?_eq _ M hM
      -- membership of the two extremes in the hull
      have hlow2 : 2 ≤ (buildChain (sortPoints P)).length :=
        buildChain_two_le _ (by omega)
      have hup2 : 2 ≤ (buildChain (sortPoints P).reverse).length :=
        buildChain_two_le _ (by rw [List.length_reverse]; omega)
      have hmH : m ∈ getConvexHull P := by
        rw [hHeq]
        refine List.mem_append_left _ (List.mem_reverse.mpr ?_)
        refine getLast?_mem_tail _ m hlow2 ?_
        rw [buildChain_getLast?, hm]
      have hMH : M ∈ getConvexHull P := by
        rw [hHeq]
        refine List.mem_append_right _ (List.mem_reverse.mpr ?_)
        refine getLast?_mem_tail _ M hup2 ?_
        rw [buildChain_getLast?, List.head?_reverse, hM]
      -- the input is not constant
      have hmM : m ≠ M := by
        intro hmMeq
        have hallm : ∀ x ∈ sortPoints P, x = m := fun x hx =>
          ptle_antisymm x m (hmMeq ▸ hmax x hx) (hmin x hx)
        -- then both hull parts are tiny, contradicting hH2
        have hlowlen : (buildChain (sortPoints P)).tail.length ≤ 1 := by
          obtain ⟨m', rest', hS⟩ := List.exists_cons_of_ne_nil hSne
          rw [hS]
          refine chain_tail_small m' rest' (hS ▸ hSsort) ?_
          intro x hx
          rw [hallm x (hS ▸ hx), hallm m' (hS ▸ List.mem_cons_self m' rest')]
        have huplen : (buildChain (sortPoints P).reverse).tail.length ≤ 1 := by
          rw [sortPoints_reverse_negP, buildChain_map_negP, ← List.map_tail,
            List.length_map]
          have hS2ne : sortPoints (P.map negP) ≠ [] := by
            intro h
            have h2 := sortPoints_reverse_negP P
            rw [h] at h2
            simp at h2
            exact hSne h2
          obtain ⟨m2, rest2, hS2⟩ := List.exists_cons_of_ne_nil hS2ne
          rw [hS2]
          refine chain_tail_small m2 rest2
            (hS2 ▸ List.sorted_insertionSort ptle (P.map negP)) ?_
          intro x hx
          have hx2 : x ∈ sortPoints (P.map negP) := hS2 ▸ hx
          have hm2 : m2 ∈ sortPoints (P.map negP) := hS2 ▸ List.mem_cons_self m2 rest2
          have hval : ∀ y ∈ sortPoints (P.map negP), y = negP m := by
            intro y hy
            have : y ∈ P.map negP :=
              (List.perm_insertionSort ptle (P.map negP)).mem_iff.mp hy
            rcases List.mem_map.mp this with ⟨z, hz, hzy⟩
            have hzS : z ∈ sortPoints P := hSperm.mem_iff.mpr hz
            rw [← hzy, hallm z hzS]
          rw [hval x hx2, hval m2 hm2]
        have : (getConvexHull P).length ≤ 2 := by
          rw [hHeq, List.length_append]
          simp only [List.length_reverse]
          omega
        exact hH2 this
      have hHsubP : ∀ y ∈ getConvexHull P, y ∈ P := hull_subset P
      -- now the two inclusions
      apply Finset.ext
      intro x
      simp only [List.mem_toFinset]
      constructor
      · intro hx
        exact hull_subset _ x hx
      · intro hx
        have hHne3 : ¬ (getConvexHull P).length ≤ 2 := hH2
        have hHhull : getConvexHull (getConvexHull P) =
            (buildChain (sortPoints (getConvexHull P))).tail.reverse ++
              (buildChain (sortPoints (getConvexHull P)).reverse).tail.reverse :=
          getConvexHull_big (getConvexHull P) hHne3
        rw [hHeq] at hx
        rcases List.mem_append.mp hx with hxlow | hxup
        · -- x is a lower-chain vertex
          have hxtail : x ∈ (buildChain (sortPoints P)).tail :=
            List.mem_reverse.mp hxlow
          have hxS : x ∈ sortPoints P :=
            buildChain_subset _ x (List.mem_of_mem_tail hxtail)
          have hxH : x ∈ getConvexHull P := by
            rw [hHeq]
            exact List.mem_append_left _ hxlow
          have hext := tail_vertex_extremal' (sortPoints P) hSne hSsort x hxtail
          have hxneM : x ≠ M :=
            tail_ne_top (sortPoints P) hSne hSsort x M hxtail hM
              ⟨m, hmS, M, hMS, hmM⟩
          have hxM : ptlt x M := ptlt_of_ptle_ne _ _ (hmax x hxS) hxneM
          have hmain := extremal_mem_chain_tail (getConvexHull P) x M hxH hMH hxM
            (fun a q ha hq h1 h2 =>
              hext a q (hSperm.mem_iff.mpr (hHsubP a ha))
                (hSperm.mem_iff.mpr (hHsubP q hq)) h1 h2)
          rw [hHhull]
          exact List.mem_append_left _ (List.mem_reverse.mpr hmain)
        · -- x is an upper-chain vertex: argue in the reflected plane
          have hxtail : x ∈ (buildChain (sortPoints P).reverse).tail :=
            List.mem_reverse.mp hxup
          have hxS : x ∈ sortPoints P := List.mem_reverse.mp
            (buildChain_subset _ x (List.mem_of_mem_tail hxtail))
          have hxH : x ∈ getConvexHull P := by
            rw [hHeq]
            exact List.mem_append_right _ hxup
          have hS2perm : List.Perm (sortPoints (P.map negP)) (P.map negP) :=
            List.perm_insertionSort ptle (P.map negP)
          have hS2sort : List.Sorted ptle (sortPoints (P.map negP)) :=
            List.sorted_insertionSort ptle (P.map negP)
          have hS2ne : sortPoints (P.map negP) ≠ [] := by
            intro h
            have h2 := sortPoints_reverse_negP P
            rw [h] at h2
            simp at h2
            exact hSne h2
          have hxtail2 : negP x ∈ (buildChain (sortPoints (P.map negP))).tail := by
            rw [sortPoints_reverse_negP, buildChain_map_negP, ← List.map_tail]
              at hxtail
            exact (mem_map_negP x _).mp hxtail
          -- negP x is extremal for the reflected input
          have hext2 := tail_vertex_extremal' (sortPoints (P.map negP)) hS2ne
            hS2sort (negP x) hxtail2
          -- negP x is not the maximum of the reflected input
          have hS2last : (sortPoints (P.map negP)).getLast? = some (negP m) := by
            have hS2eq : sortPoints (P.map negP) = (sortPoints P).reverse.map negP := by
              have := congrArg (List.map negP) (sortPoints_reverse_negP P)
              rw [map_negP_invol] at this
              exact this.symm
            rw [hS2eq, List.getLast?_map, List.getLast?_reverse, hm]
            rfl
          have hxnem : negP x ≠ negP m := by
            refine tail_ne_top (sortPoints (P.map negP)) hS2ne hS2sort (negP x)
              (negP m) hxtail2 hS2last ⟨negP m, ?_, negP M, ?_, ?_⟩
            · exact mem_of_getLast?_eq _ _ hS2last
            · have hS2eq : sortPoints (P.map negP) = (sortPoints P).reverse.map negP := by
                have := congrArg (List.map negP) (sortPoints_reverse_negP P)
                rw [map_negP_invol] at this
                exact this.symm
              rw [hS2eq]
              refine (mem_map_negP _ _).mpr ?_
              rw [negP_invol]
              exact List.mem_reverse.mpr hMS
            · intro h
              exact hmM (by
                have := congrArg negP h
                rw [negP_invol, negP_invol] at this
                exact this)
          have hxm : ptlt (negP x) (negP m) := by
            refine ptlt_of_ptle_ne _ _ ?_ hxnem
            exact (ptle_negP x m).mpr (hmin x hxS)
          have hmain := extremal_mem_chain_tail ((getConvexHull P).map negP)
            (negP x) (negP m)
            ((mem_map_negP _ _).mpr (by rw [negP_invol]; exact hxH))
            ((mem_map_negP _ _).mpr (by rw [negP_invol]; exact hmH))
            hxm
            (fun a q ha hq h1 h2 => by
              refine hext2 a q ?_ ?_ h1 h2
              · refine hS2perm.mem_iff.mpr ?_
                refine (mem_map_negP _ _).mpr ?_
                exact hHsubP (negP a) ((mem_map_negP _ _).mp ha)
              · refine hS2perm.mem_iff.mpr ?_
                refine (mem_map_negP _ _).mpr ?_
                exact hHsubP (negP q) ((mem_map_negP _ _).mp hq))
          rw [hHhull]
          refine List.mem_append_right _ (List.mem_reverse.mpr ?_)
          rw [sortPoints_reverse_negP, buildChain_map_negP, ← List.map_tail]
          exact (mem_map_negP x _).mpr hmain
